import Mathlib

/-!
# Verification of the blockchain simulator's cryptographic assembly engine

Shallow embedding of the Rust sources (`src/hashing.rs`, `src/model.rs`,
`src/node.rs`, `src/views.rs`) of the proof-of-work blockchain simulator.

Rust `String` values are modelled as `List Char`; every string handled by the
program is ASCII, so Rust's byte-wise operations coincide with character-wise
operations here. Machine integers (`u32`, `u64`, `usize`) are modelled as `Nat`,
with an explicit `% 2 ^ 32` where the source performs wrapping-relevant
arithmetic (the nonce increment). Fallible operations (Rust panics via
`unwrap`, `drain` out of range, `U256::from_be_hex` on malformed input) are
modelled with `Option` / `Except`, where `none` / `error` marks a panic.

The `sha256` crate's `digest` function is modelled by a full executable
SHA-256 (FIPS 180-4) over the string's bytes (ASCII, so `Char.toNat` is the
UTF-8 byte), producing the crate's lowercase 64-character hex rendering.
-/

namespace BlockchainSim

set_option maxRecDepth 100000

/-! ## SHA-256 (model of the `sha256` crate's `digest` function) -/

/-- `2 ^ 32`, the modulus for 32-bit word arithmetic. -/
def U32 : Nat := 4294967296

/-- Right rotation of a 32-bit word. -/
def rotr (n x : Nat) : Nat := (x >>> n) ||| ((x <<< (32 - n)) % U32)

/-- `Ch(x,y,z)`; `¬x` is modelled as xor with the all-ones 32-bit word. -/
def chF (x y z : Nat) : Nat := (x &&& y) ^^^ ((x ^^^ (U32 - 1)) &&& z)

/-- `Maj(x,y,z)`. -/
def majF (x y z : Nat) : Nat := (x &&& y) ^^^ (x &&& z) ^^^ (y &&& z)

/-- `Σ₀`. -/
def bsig0 (x : Nat) : Nat := rotr 2 x ^^^ rotr 13 x ^^^ rotr 22 x

/-- `Σ₁`. -/
def bsig1 (x : Nat) : Nat := rotr 6 x ^^^ rotr 11 x ^^^ rotr 25 x

/-- `σ₀`. -/
def ssig0 (x : Nat) : Nat := rotr 7 x ^^^ rotr 18 x ^^^ (x >>> 3)

/-- `σ₁`. -/
def ssig1 (x : Nat) : Nat := rotr 17 x ^^^ rotr 19 x ^^^ (x >>> 10)

/-- The eight SHA-256 initial hash values. -/
def H0 : List Nat :=
  [1779033703, 3144134277, 1013904242, 2773480762,
   1359893119, 2600822924, 528734635, 1541459225]

/-- The 64 SHA-256 round constants. -/
def K : List Nat :=
  [1116352408, 1899447441, 3049323471, 3921009573, 961987163,
   1508970993, 2453635748, 2870763221, 3624381080, 310598401,
   607225278, 1426881987, 1925078388, 2162078206, 2614888103,
   3248222580, 3835390401, 4022224774, 264347078, 604807628,
   770255983, 1249150122, 1555081692, 1996064986, 2554220882,
   2821834349, 2952996808, 3210313671, 3336571891, 3584528711,
   113926993, 338241895, 666307205, 773529912, 1294757372,
   1396182291, 1695183700, 1986661051, 2177026350, 2456956037,
   2730485921, 2820302411, 3259730800, 3345764771, 3516065817,
   3600352804, 4094571909, 275423344, 430227734, 506948616,
   659060556, 883997877, 958139571, 1322822218, 1537002063,
   1747873779, 1955562222, 2024104815, 2227730452, 2361852424,
   2428436474, 2756734187, 3204031479, 3329325298]

/-- Big-endian 8-byte rendering of a 64-bit length field. -/
def u64be (n : Nat) : List Nat :=
  [(n >>> 56) % 256, (n >>> 48) % 256, (n >>> 40) % 256, (n >>> 32) % 256,
   (n >>> 24) % 256, (n >>> 16) % 256, (n >>> 8) % 256, n % 256]

/-- SHA-256 padding: append `0x80`, zero bytes up to 56 mod 64, then the
big-endian 64-bit bit length. -/
def padMessage (msg : List Nat) : List Nat :=
  msg ++ [128] ++ List.replicate ((119 - (msg.length % 64)) % 64) 0
      ++ u64be (8 * msg.length)

/-- Big-endian 32-bit words from a byte list (length a multiple of 4). -/
def toWords : List Nat → List Nat
  | a :: b :: c :: d :: rest =>
      ((a <<< 24) ||| (b <<< 16) ||| (c <<< 8) ||| d) :: toWords rest
  | _ => []

/-- Append the next message-schedule word. -/
def scheduleStep (w : List Nat) : List Nat :=
  let l := w.length
  w ++ [(ssig1 (w.getD (l - 2) 0) + w.getD (l - 7) 0 + ssig0 (w.getD (l - 15) 0)
         + w.getD (l - 16) 0) % U32]

/-- The 64-word message schedule from the 16 words of one block. -/
def schedule (w16 : List Nat) : List Nat :=
  (List.range 48).foldl (fun w _ => scheduleStep w) w16

/-- One SHA-256 round on the 8-word working state. -/
def roundStep (st : List Nat) (kw : Nat × Nat) : List Nat :=
  match st with
  | [a, b, c, d, e, f, g, h] =>
      let t1 := (h + bsig1 e + chF e f g + kw.1 + kw.2) % U32
      let t2 := (bsig0 a + majF a b c) % U32
      [(t1 + t2) % U32, a, b, c, (d + t1) % U32, e, f, g]
  | _ => st

/-- Compress one 64-byte block into the running 8-word state. -/
def compress (st : List Nat) (block : List Nat) : List Nat :=
  let w := schedule (toWords block)
  let st2 := (K.zip w).foldl roundStep st
  (st.zip st2).map (fun p => (p.1 + p.2) % U32)

/-- Split a byte list into 64-byte chunks; the fuel argument (instantiated with
the list length, which strictly exceeds the number of chunks) keeps the
recursion structural so that it evaluates inside the kernel. -/
def chunks64Aux : Nat → List Nat → List (List Nat)
  | 0, _ => []
  | _, [] => []
  | fuel + 1, l => l.take 64 :: chunks64Aux fuel (l.drop 64)

/-- Split a byte list into 64-byte chunks. -/
def chunks64 (l : List Nat) : List (List Nat) := chunks64Aux l.length l

/-- The final 8-word SHA-256 state of a byte message. -/
def sha256words (msg : List Nat) : List Nat :=
  (chunks64 (padMessage msg)).foldl compress H0

/-- Lowercase hex digit for a value below 16. -/
def toHexDigit (n : Nat) : Char := if n < 10 then Char.ofNat (48 + n) else Char.ofNat (87 + n)

/-- Eight lowercase hex digits of a 32-bit word. -/
def wordToHex (w : Nat) : List Char :=
  [toHexDigit ((w >>> 28) % 16), toHexDigit ((w >>> 24) % 16),
   toHexDigit ((w >>> 20) % 16), toHexDigit ((w >>> 16) % 16),
   toHexDigit ((w >>> 12) % 16), toHexDigit ((w >>> 8) % 16),
   toHexDigit ((w >>> 4) % 16), toHexDigit (w % 16)]

/-- Model of the `sha256` crate's `digest`: SHA-256 of the string's bytes
(all strings in this program are ASCII, so `Char.toNat` is the byte),
rendered as 64 lowercase hex characters. -/
def digest (s : List Char) : List Char :=
  ((sha256words (s.map Char.toNat)).map wordToHex).flatten

/-! ## String helpers (Rust `String` operations used by the sources) -/

/-- Rust `String` comparison `<`: byte-lexicographic; on the ASCII strings the
program handles this is character-code lexicographic order. Used by
`InclusionProof::verify` (src/model.rs). -/
def strLt : List Char → List Char → Bool
  | [], [] => false
  | [], _ :: _ => true
  | _ :: _, [] => false
  | a :: as, b :: bs =>
    if a.toNat < b.toNat then true
    else if b.toNat < a.toNat then false
    else strLt as bs

/-- Model of Rust `str::trim_start_matches("0x")`: strips every leading
occurrence of "0x". -/
def trimStart0x : List Char → List Char
  | '0' :: 'x' :: rest => trimStart0x rest
  | l => l

/-- Hex digit (0-9, a-f, A-F), the alphabet `U256::from_be_hex` accepts. -/
def isHexChar (c : Char) : Bool :=
  (48 ≤ c.toNat && c.toNat ≤ 57) || (97 ≤ c.toNat && c.toNat ≤ 102)
    || (65 ≤ c.toNat && c.toNat ≤ 70)

/-- Value of a hex digit character. -/
def hexDigitVal (c : Char) : Nat :=
  if c.toNat ≤ 57 then c.toNat - 48
  else if 97 ≤ c.toNat then c.toNat - 87
  else c.toNat - 55

/-- Big-endian numeric value of a hex string. -/
def hexVal : List Char → Nat
  | [] => 0
  | c :: cs => hexDigitVal c * 16 ^ cs.length + hexVal cs

/-- Model of `crypto_bigint::U256::from_be_hex` (used in
`construct_merkle_tree`, src/node.rs): the numeric value of a 64-character hex
string; `none` models the panic on a malformed input. -/
def fromBeHex (l : List Char) : Option Nat :=
  if l.length == 64 && l.all isHexChar then some (hexVal l) else none

/-- Decimal rendering of an unsigned integer, as Rust `to_string`. -/
def natStr (n : Nat) : List Char := (Nat.repr n).data

/-! ## Data model (src/model.rs) -/

/-- `Transaction` (src/model.rs). Numeric fields are `u64`/`u32` in the
source; all claims stay within those ranges, so they are modelled as `Nat`. -/
structure Transaction where
  amount : Nat
  lock_time : Nat
  receiver : List Char
  sender : List Char
  signature : List Char
  transaction_fee : Nat
deriving DecidableEq

/-- `Header` (src/model.rs). -/
structure Header where
  difficulty : Nat
  height : Nat
  miner : List Char
  nonce : Nat
  hash : List Char
  previous_block_header_hash : List Char
  timestamp : Nat
  transactions_count : Nat
  transactions_merkle_root : List Char
deriving DecidableEq

/-- `Block` (src/model.rs). -/
structure Block where
  header : Header
  transactions : List Transaction
deriving DecidableEq

/-- `MerkleTreeNode` (src/model.rs): a hash plus optionally owned children. -/
inductive MerkleTreeNode where
  | mk (hash : List Char) (left right : Option MerkleTreeNode)

/-- The `hash` field of a `MerkleTreeNode`. -/
def MerkleTreeNode.hash : MerkleTreeNode → List Char
  | .mk h _ _ => h

/-- The `left` child of a `MerkleTreeNode`. -/
def MerkleTreeNode.left : MerkleTreeNode → Option MerkleTreeNode
  | .mk _ l _ => l

/-- The `right` child of a `MerkleTreeNode`. -/
def MerkleTreeNode.right : MerkleTreeNode → Option MerkleTreeNode
  | .mk _ _ r => r

/-- `InclusionProof` (src/model.rs). -/
structure InclusionProof where
  transaction_hash : List Char
  merkle_root : List Char
  hashes : List (List Char)
deriving DecidableEq

/-! ## Canonical hashing (src/hashing.rs) -/

/-- `Transaction::hash` (src/hashing.rs): the six fields in alphabetical
order, comma-joined without spaces, SHA-256 digested; the result is returned
bare, with no 0x prefix. -/
def Transaction.hash (t : Transaction) : List Char :=
  digest (natStr t.amount ++ [','] ++ natStr t.lock_time ++ [','] ++ t.receiver
    ++ [','] ++ t.sender ++ [','] ++ t.signature ++ [','] ++ natStr t.transaction_fee)

/-- `Header::hash` (src/hashing.rs): the nine fields in alphabetical order
(including the header's own `hash` field), comma-joined, SHA-256 digested,
with "0x" prepended. Named `headerHash` because `Header.hash` is the field
projection. -/
def headerHash (h : Header) : List Char :=
  [ '0', 'x' ] ++ digest (natStr h.difficulty ++ [','] ++ h.hash ++ [','] ++ natStr h.height
    ++ [','] ++ h.miner ++ [','] ++ natStr h.nonce ++ [','] ++ h.previous_block_header_hash
    ++ [','] ++ natStr h.timestamp ++ [','] ++ natStr h.transactions_count
    ++ [','] ++ h.transactions_merkle_root)

/-! ## Inclusion proof verification (src/model.rs) -/

/-- One step of `InclusionProof::verify`: combine the current hash with the
next sibling, ordering the concatenation by Rust `String` comparison. -/
def verifyStep (current sibling : List Char) : List Char :=
  if strLt current sibling then digest (current ++ sibling)
  else digest (sibling ++ current)

/-- `InclusionProof::verify` (src/model.rs): fold the sibling hashes into the
transaction hash, prepend "0x", compare with the claimed root. -/
def InclusionProof.verify (p : InclusionProof) : Except (List Char) InclusionProof :=
  let current := p.hashes.foldl verifyStep p.transaction_hash
  if [ '0', 'x' ] ++ current == p.merkle_root then Except.ok p
  else Except.error "Inclusion proof verification failed".data

/-! ## Merkle tree construction (src/node.rs, `miner` module) -/

/-- The `null_string` padding placeholder of `construct_merkle_tree`. -/
def null_string : List Char :=
  "0x0000000000000000000000000000000000000000000000000000000000000000".data

/-- The synthetic padding node appended to an odd level. -/
def padNode : MerkleTreeNode := .mk null_string none none

/-- The loop body of `construct_merkle_tree` for one pair `(node_a, node_b)`:
interpret both hashes (with any "0x" stripped) as `U256` values and digest the
concatenation smaller-first; `none` models the `from_be_hex` panic. -/
def combineNodes (node_a node_b : MerkleTreeNode) : Option MerkleTreeNode := do
  let hash_a_value ← fromBeHex (trimStart0x node_a.hash)
  let hash_b_value ← fromBeHex (trimStart0x node_b.hash)
  let new_hash :=
    if hash_a_value < hash_b_value then digest (node_a.hash ++ node_b.hash)
    else digest (node_b.hash ++ node_a.hash)
  some (.mk new_hash (some node_a) (some node_b))

/-- Combine the nodes of one (even-length) level pairwise, left to right. -/
def pairPairs : List MerkleTreeNode → Option (List MerkleTreeNode)
  | node_a :: node_b :: rest => do
      let n ← combineNodes node_a node_b
      let ns ← pairPairs rest
      some (n :: ns)
  | [] => some []
  | [_] => some []

/-- Append the padding node when the level has odd length. -/
def padIfOdd (nodes : List MerkleTreeNode) : List MerkleTreeNode :=
  if nodes.length % 2 != 0 then nodes ++ [padNode] else nodes

/-- The `while nodes.len() > 1` loop of `construct_merkle_tree`. The fuel
argument (instantiated with the leaf count, which strictly exceeds the number
of levels) keeps the recursion structural; `buildLevels_total` below shows
fuel is never exhausted on inputs `from_be_hex` accepts. An empty level models
the `nodes.get(0).unwrap()` panic on empty input. -/
def buildLevels : Nat → List MerkleTreeNode → Option MerkleTreeNode
  | _, [] => none
  | _, [n] => some n
  | 0, _ :: _ :: _ => none
  | fuel + 1, a :: b :: rest => do
      buildLevels fuel (← pairPairs (padIfOdd (a :: b :: rest)))

/-- `construct_merkle_tree` (src/node.rs): wrap each leaf hash in a node and
fold levels until a single root remains. -/
def construct_merkle_tree (transaction_hashes : List (List Char)) : Option MerkleTreeNode :=
  buildLevels transaction_hashes.length
    (transaction_hashes.map (fun t => MerkleTreeNode.mk t none none))

/-- `compute_transaction_hashes` (src/node.rs). -/
def compute_transaction_hashes (transactions : List Transaction) : List (List Char) :=
  transactions.map Transaction.hash

/-! ## Mining (src/node.rs, `miner` module) -/

/-- `is_valid_block_header_hash` (src/node.rs): the characters at byte range
`[2, 2+difficulty)` must all be '0'. (Every hash this program checks is a
66-character "0x"-prefixed digest, so the Rust slice is always in bounds.) -/
def is_valid_block_header_hash (hash : List Char) (difficulty : Nat) : Bool :=
  (hash.drop 2).take difficulty == List.replicate difficulty '0'

/-- The `while !is_valid_block_header_hash(&block_header_hash, 5)` loop of
`mine_new_block`: try successive nonces until the recomputed header digest has
five leading zero hex digits. The source loop is unbounded; the fuel argument
bounds how many nonces this model examines, with `none` meaning the search
did not finish within the fuel. The nonce is a `u32`, hence the wrap-around
on increment. -/
def mineLoop : Nat → Header → List Char → Option (Header × List Char)
  | 0, _, _ => none
  | fuel + 1, header, block_header_hash =>
    if is_valid_block_header_hash block_header_hash 5 then some (header, block_header_hash)
    else
      let header2 := { header with nonce := (header.nonce + 1) % U32 }
      mineLoop fuel header2 (headerHash header2)

/-- `mine_new_block` (src/node.rs): hash the batch, build the Merkle tree,
assemble the candidate header (difficulty and miner copied from the parent,
height +1, timestamp +10, nonce 0, empty own-hash field, "0x"-prefixed Merkle
root), then run the nonce search and store the winning digest. -/
def mine_new_block (fuel : Nat) (transactions : List Transaction)
    (previous_block : Block) : Option Block := do
  let transaction_hashes := compute_transaction_hashes transactions
  let merkle_root ← construct_merkle_tree transaction_hashes
  let header : Header := {
    difficulty := previous_block.header.difficulty
    height := previous_block.header.height + 1
    miner := previous_block.header.miner
    nonce := 0
    hash := []
    previous_block_header_hash := previous_block.header.hash
    timestamp := previous_block.header.timestamp + 10
    transactions_count := transaction_hashes.length
    transactions_merkle_root := [ '0', 'x' ] ++ merkle_root.hash }
  let (h, block_header_hash) ← mineLoop fuel header (headerHash header)
  some { header := { h with hash := block_header_hash }, transactions := transactions }

/-! ## Mempool selection (src/node.rs, `miner` module) -/

/-- Stable insertion of a transaction into a fee-descending list: placed
before the first element whose fee is not larger. -/
def insertByFeeDesc (t : Transaction) : List Transaction → List Transaction
  | [] => [t]
  | u :: us =>
    if u.transaction_fee ≤ t.transaction_fee then t :: u :: us
    else u :: insertByFeeDesc t us

/-- Model of Rust's stable `sort_by(|t1, t2| t2.transaction_fee.cmp(&t1.transaction_fee))`:
the unique fee-descending reordering that keeps the original order of
equal-fee transactions, realized as a stable insertion sort. -/
def sortByFeeDesc : List Transaction → List Transaction
  | [] => []
  | t :: ts => insertByFeeDesc t (sortByFeeDesc ts)

/-- `find_executable_transactions` (src/node.rs): sort by decreasing fee,
then keep exactly the transactions with `lock_time > new_block_timestamp`
(the literal comparison in the source). -/
def find_executable_transactions (transactions : List Transaction)
    (new_block_timestamp : Nat) : List Transaction :=
  (sortByFeeDesc transactions).filter (fun t => new_block_timestamp < t.lock_time)

/-! ## Block production (src/node.rs, `produce_blocks`) -/

/-- `iter().max_by(...)` on block timestamps: the last block with the maximal
timestamp, `none` on an empty chain (the source unwraps it). -/
def find_most_recent_block : List Block → Option Block
  | [] => none
  | b :: bs =>
    some (bs.foldl (fun acc x => if acc.header.timestamp ≤ x.header.timestamp then x else acc) b)

/-- The `for _ in 0..args.blocks_to_mine` loop of `produce_blocks`: drain the
first 100 transactions of the pool (`drain(0..100)` panics — `none` — when
fewer than 100 remain), mine a block onto the chain, and continue from the
newly appended block. -/
def mineChain (fuel : Nat) :
    Nat → List Block → List Transaction → Block → Option (List Block × List Transaction)
  | 0, blockchain, pool, _ => some (blockchain, pool)
  | k + 1, blockchain, pool, most_recent_block => do
    let batch ← if 100 ≤ pool.length then some (pool.take 100) else none
    let block ← mine_new_block fuel batch most_recent_block
    mineChain fuel k (blockchain ++ [block]) (pool.drop 100) block

/-- `produce_blocks` (src/node.rs), I/O stripped: the loaded blockchain and
mempool in, the written-back blockchain and mempool out. The filter cutoff is
the projected next timestamp of the block most recent at entry. -/
def produce_blocks (fuel blocks_to_mine : Nat) (blockchain : List Block)
    (transactions : List Transaction) : Option (List Block × List Transaction) := do
  let most_recent_block ← find_most_recent_block blockchain
  let executable_transactions :=
    find_executable_transactions transactions (most_recent_block.header.timestamp + 10)
  mineChain fuel blocks_to_mine blockchain executable_transactions most_recent_block

/-! ## Inclusion proofs (src/node.rs, `validator` module) -/

/-- `find_path_to_transaction_in_merkle_tree` (src/node.rs): depth-first
search for the target hash, returning the accumulated root-to-match path. -/
def find_path_to_transaction_in_merkle_tree :
    MerkleTreeNode → List Char → List MerkleTreeNode → Option (List MerkleTreeNode)
  | .mk h l r, transaction_hash_to_verify, path_accumulator =>
    let new_path_accumulator := path_accumulator ++ [MerkleTreeNode.mk h l r]
    if h == transaction_hash_to_verify then some new_path_accumulator
    else
      let fromLeft :=
        match l with
        | some node =>
          find_path_to_transaction_in_merkle_tree node transaction_hash_to_verify
            new_path_accumulator
        | none => none
      match fromLeft with
      | some found => some found
      | none =>
        match r with
        | some node =>
          find_path_to_transaction_in_merkle_tree node transaction_hash_to_verify
            new_path_accumulator
        | none => none

/-- The sibling-collection loop of `produce_inclusion_proof`: for each
consecutive parent/child pair of the path, record the hash of the parent's
child that is not the path child (compared by hash); the `unwrap`s on the
parent's children are modelled by `Option`. -/
def extractSiblings : List MerkleTreeNode → Option (List (List Char))
  | current_parent :: current_node :: rest => do
    let l ← current_parent.left
    let s ←
      if l.hash == current_node.hash then
        match current_parent.right with
        | some r => some r.hash
        | none => none
      else some l.hash
    let tail ← extractSiblings (current_node :: rest)
    some (s :: tail)
  | _ => some []

/-- `produce_inclusion_proof` (src/node.rs): find the path, collect the
siblings, reverse them to leaf-to-root order, and attach the "0x"-prefixed
root hash. -/
def produce_inclusion_proof (merkle_root : MerkleTreeNode)
    (transaction_hash_to_verify : List Char) : Option InclusionProof := do
  let path ← find_path_to_transaction_in_merkle_tree merkle_root
    transaction_hash_to_verify []
  let proof ← extractSiblings path
  some { transaction_hash := transaction_hash_to_verify
         merkle_root := [ '0', 'x' ] ++ merkle_root.hash
         hashes := proof.reverse }

/-- Rust `usize` subtraction of 1, with the wrapping semantics of release
builds: `0 - 1` wraps to `2^64 - 1` (a huge, certainly out-of-range index). -/
def usizeSub1 (n : Nat) : Nat :=
  (n + 18446744073709551615) % 18446744073709551616

/-- `generate_inclusion_proof` (src/node.rs), I/O stripped. `Except.error`
models a panic: the source `unwrap`s the block lookup (and
`construct_merkle_tree` panics on an empty transaction list); a target hash
absent from the tree is recovered as `Except.ok none` (logged, nothing
written). -/
def generate_inclusion_proof (blockchain : List Block) (block_number : Nat)
    (transaction_hash_to_verify : List Char) : Except (List Char) (Option InclusionProof) :=
  match blockchain.get? (usizeSub1 block_number) with
  | none => Except.error "panic: called Option::unwrap on a None value".data
  | some block =>
    match construct_merkle_tree (compute_transaction_hashes block.transactions) with
    | none => Except.error "panic in construct_merkle_tree".data
    | some merkle_root =>
      match produce_inclusion_proof merkle_root transaction_hash_to_verify with
      | none => Except.ok none
      | some inclusion_proof => Except.ok (some inclusion_proof)

/-- Outcome of `verify_inclusion_proof` (src/node.rs): every branch returns
normally after logging. -/
inductive VerifyOutcome where
  | blockNotFound
  | rootMismatch
  | valid (proof : InclusionProof)
  | invalid
deriving DecidableEq

/-- `verify_inclusion_proof` (src/node.rs), I/O stripped: look the block up
(recovered `let ... else` on failure), require the proof's root to match the
block header's recorded root, then run `InclusionProof::verify`. -/
def verify_inclusion_proof (blockchain : List Block) (block_number : Nat)
    (proof : InclusionProof) : VerifyOutcome :=
  match blockchain.get? (usizeSub1 block_number) with
  | none => VerifyOutcome.blockNotFound
  | some block =>
    if block.header.transactions_merkle_root != proof.merkle_root then
      VerifyOutcome.rootMismatch
    else
      match proof.verify with
      | Except.ok p => VerifyOutcome.valid p
      | Except.error _ => VerifyOutcome.invalid

/-! ## Views (src/views.rs) -/

/-- `get_transaction_hash` (src/views.rs): 1-based block and transaction
lookup, recovered as `none` when either index is out of range (`usize`
subtraction wraps in release builds, so index 0 becomes out of range). -/
def get_transaction_hash (blockchain : List Block) (block_number : Nat)
    (transaction_number : Nat) : Option (List Char) := do
  let block ← blockchain.get? (usizeSub1 block_number)
  let transaction ← block.transactions.get? (usizeSub1 transaction_number)
  some transaction.hash

/-! ## Predicates used by the specification statements -/

/-- Lowercase hex digit (0-9, a-f), the alphabet of the hasher's output. -/
def isLowerHex (c : Char) : Bool :=
  (48 ≤ c.toNat && c.toNat ≤ 57) || (97 ≤ c.toNat && c.toNat ≤ 102)

/-- A bare digest string: exactly 64 lowercase hex characters, no prefix. -/
def bareHex64 (l : List Char) : Bool :=
  l.length == 64 && l.all isLowerHex

/-- Whether some node of the tree carries the given hash (the search space of
`find_path_to_transaction_in_merkle_tree`). -/
def hashInTree (target : List Char) : MerkleTreeNode → Bool
  | .mk h none none => h == target
  | .mk h (some l) none => h == target || hashInTree target l
  | .mk h none (some r) => h == target || hashInTree target r
  | .mk h (some l) (some r) => h == target || hashInTree target l || hashInTree target r

/-- Subtree membership: `nodeIn n t` holds when `n` is `t` or a descendant. -/
def nodeIn (n : MerkleTreeNode) : MerkleTreeNode → Prop
  | .mk h none none => n = .mk h none none
  | .mk h (some l) none => n = .mk h (some l) none ∨ nodeIn n l
  | .mk h none (some r) => n = .mk h none (some r) ∨ nodeIn n r
  | .mk h (some l) (some r) =>
      n = .mk h (some l) (some r) ∨ nodeIn n l ∨ nodeIn n r

/-- The hashes of the leaves of a tree, left to right. -/
def leafHashes : MerkleTreeNode → List (List Char)
  | .mk h none none => [h]
  | .mk _ (some l) none => leafHashes l
  | .mk _ none (some r) => leafHashes r
  | .mk _ (some l) (some r) => leafHashes l ++ leafHashes r

/-- Structural invariant of every tree `construct_merkle_tree` produces:
leaves have no children, and every internal node has exactly two children and
is precisely the node `combineNodes` builds from them. -/
def TreeOK : MerkleTreeNode → Prop
  | .mk _ none none => True
  | .mk _ (some _) none => False
  | .mk _ none (some _) => False
  | .mk h (some l) (some r) =>
      combineNodes l r = some (.mk h (some l) (some r)) ∧ TreeOK l ∧ TreeOK r

/-! ## Concrete instances used by witnesses and counterexamples

The digest values below were computed with an independent SHA-256
implementation and are re-checked by the kernel in every statement that
mentions them. -/

/-- A sample transaction. Its canonical hash is
`4b8d88f2238a41cb0a8f715b0481e4e95f042bd4b3ff0f6a5fd3f38443fb66ac`. -/
def tx1 : Transaction :=
  { amount := 1, lock_time := 0, receiver := "ra".data, sender := "sa".data,
    signature := "siga".data, transaction_fee := 5 }

/-- A second sample transaction. -/
def tx2 : Transaction :=
  { amount := 2, lock_time := 0, receiver := "rb".data, sender := "sb".data,
    signature := "sigb".data, transaction_fee := 6 }

/-- A third sample transaction, chosen so that its canonical hash
`058a59eb…` begins with the character '0' — the case on which the verifier's
lexicographic comparison and the builder's numeric comparison disagree when
the sibling is the "0x"-prefixed padding placeholder. -/
def tx3 : Transaction :=
  { amount := 3, lock_time := 0, receiver := "rc".data, sender := "sd".data,
    signature := "s3".data, transaction_fee := 7 }

/-- The Merkle tree `construct_merkle_tree` builds over the hashes of
`[tx1, tx2]`. -/
def treeW : MerkleTreeNode :=
  .mk "79dea3b3c88c4709be7bbfa3209e29ac0c754086a687df3f12eff3e08c7cce7d".data
    (some (.mk "4b8d88f2238a41cb0a8f715b0481e4e95f042bd4b3ff0f6a5fd3f38443fb66ac".data
      none none))
    (some (.mk "4af1de158f0b9caef62d22d9114402649373dd8349574429abc901f3bd7dc283".data
      none none))

/-- The inclusion proof `produce_inclusion_proof treeW tx1.hash` generates. -/
def proofW : InclusionProof :=
  { transaction_hash :=
      "4b8d88f2238a41cb0a8f715b0481e4e95f042bd4b3ff0f6a5fd3f38443fb66ac".data
    merkle_root :=
      "0x79dea3b3c88c4709be7bbfa3209e29ac0c754086a687df3f12eff3e08c7cce7d".data
    hashes :=
      ["4af1de158f0b9caef62d22d9114402649373dd8349574429abc901f3bd7dc283".data] }

/-- A transaction found by offline search so that the candidate header built
from it on top of `parentW` already has five leading zero hex digits at
nonce 0 — letting the fuel-bounded mining loop succeed immediately. -/
def txW : Transaction :=
  { amount := 9, lock_time := 0, receiver := "r".data, sender := "s".data,
    signature := "w808900".data, transaction_fee := 2 }

/-- A parent block for the mining witnesses; its difficulty field is 0. -/
def parentW : Block :=
  { header :=
    { difficulty := 0, height := 0, miner := "m".data, nonce := 0,
      hash := "0xparenthash".data, previous_block_header_hash := [],
      timestamp := 0, transactions_count := 0,
      transactions_merkle_root := "0xr".data }
    transactions := [] }

/-- The block `mine_new_block` produces from `[txW]` on top of `parentW`. -/
def blockW : Block :=
  { header :=
    { difficulty := 0, height := 1, miner := "m".data, nonce := 0,
      hash := "0x000008112490b34cae486e9dc89cc9668600a7fd645a62677ed92f7bdccc794c".data,
      previous_block_header_hash := "0xparenthash".data, timestamp := 10,
      transactions_count := 1,
      transactions_merkle_root :=
        "0x44574bfcecdc7e7cb2e045b0eccdfe19839ec2b7d1e184283c1dd3cc5b8ee47a".data }
    transactions := [txW] }

/-- A transaction whose lock time (5) has already elapsed relative to the
cutoff timestamp 10 used in the filter-polarity analysis. -/
def txE : Transaction :=
  { amount := 4, lock_time := 5, receiver := "re".data, sender := "se".data,
    signature := "sige".data, transaction_fee := 1 }

/-- A transaction whose lock time (20) has not yet elapsed at timestamp 10. -/
def txL : Transaction :=
  { amount := 6, lock_time := 20, receiver := "rl".data, sender := "sl".data,
    signature := "sigl".data, transaction_fee := 2 }

/-- A pending transaction that passes the mempool filter (lock time far in
the future) for the block-production analysis. -/
def txP : Transaction :=
  { amount := 7, lock_time := 100, receiver := "rp".data, sender := "sp".data,
    signature := "sigp".data, transaction_fee := 3 }

/-- A genesis block with timestamp 0. -/
def genesisB : Block :=
  { header :=
    { difficulty := 0, height := 0, miner := "g".data, nonce := 0,
      hash := "0xgenesis".data, previous_block_header_hash := [],
      timestamp := 0, transactions_count := 0,
      transactions_merkle_root := "0xg".data }
    transactions := [] }

/-- A block holding one transaction, for the lookup analyses. -/
def blockB : Block :=
  { header := genesisB.header, transactions := [tx1] }

/-- A 64-character bare hex string. -/
def hexA64 : List Char :=
  "aaaaaaaaaaaaaaaaaaaaaaaaaaaaaaaaaaaaaaaaaaaaaaaaaaaaaaaaaaaaaaaa".data

/-- Another 64-character bare hex string. -/
def hexB64 : List Char :=
  "bbbbbbbbbbbbbbbbbbbbbbbbbbbbbbbbbbbbbbbbbbbbbbbbbbbbbbbbbbbbbbbb".data

/-- A third 64-character bare hex string. -/
def hexC64 : List Char :=
  "cccccccccccccccccccccccccccccccccccccccccccccccccccccccccccccccc".data

/-- A 64-character bare hex string beginning with '0': lexicographically
smaller than the padding placeholder "0x00…" but numerically larger than 0. -/
def hexZ0 : List Char :=
  "0aaaaaaaaaaaaaaaaaaaaaaaaaaaaaaaaaaaaaaaaaaaaaaaaaaaaaaaaaaaaaa".data

/-- The left subtree of `treeQ`: the pair of the leaves `hexA64`, `hexB64`
(declared below). -/
def treeQ1 : MerkleTreeNode :=
  .mk "fa0dafbf43f1f551e536353e9d1a942a8e86e41a0b58dfeaf264ef217f6b862a".data
    (some (.mk
      "aaaaaaaaaaaaaaaaaaaaaaaaaaaaaaaaaaaaaaaaaaaaaaaaaaaaaaaaaaaaaaaa".data
      none none))
    (some (.mk
      "bbbbbbbbbbbbbbbbbbbbbbbbbbbbbbbbbbbbbbbbbbbbbbbbbbbbbbbbbbbbbbbb".data
      none none))

/-- The right subtree of `treeQ`: the leaf `hexC64` paired with the padding
placeholder. -/
def treeQ2 : MerkleTreeNode :=
  .mk "9ea998652adf1b3f3cf1451b9146414efef742d320b9986e38e7a24ee2b4ff7f".data
    (some (.mk
      "cccccccccccccccccccccccccccccccccccccccccccccccccccccccccccccccc".data
      none none))
    (some (.mk null_string none none))

/-- The tree `construct_merkle_tree` builds over `[hexA64, hexB64, hexC64]`:
an odd leaf count, so the padding placeholder appears as the right child of
the right subtree. -/
def treeQ : MerkleTreeNode :=
  .mk "b2cc6dcd9ead8a0148887b6cee71fb43dbc5f86f697fb35f9b0685d6d2833daf".data
    (some treeQ1) (some treeQ2)

deriving instance DecidableEq for Except

/-! ## Output format of the hasher -/

theorem roundStep_length (st : List Nat) (kw : Nat × Nat) :
    (roundStep st kw).length = st.length := by
  unfold roundStep
  split
  · simp
  · rfl

theorem foldl_roundStep_length (l : List (Nat × Nat)) (st : List Nat) :
    (l.foldl roundStep st).length = st.length := by
  induction l generalizing st with
  | nil => rfl
  | cons a l ih => rw [List.foldl_cons, ih, roundStep_length]

theorem compress_length (st block : List Nat) :
    (compress st block).length = st.length := by
  unfold compress
  simp [foldl_roundStep_length]

theorem foldl_compress_length (cs : List (List Nat)) (st : List Nat) :
    (cs.foldl compress st).length = st.length := by
  induction cs generalizing st with
  | nil => rfl
  | cons c cs ih => rw [List.foldl_cons, ih, compress_length]

theorem sha256words_length (msg : List Nat) : (sha256words msg).length = 8 := by
  unfold sha256words
  rw [foldl_compress_length]
  rfl

theorem digest_length (s : List Char) : (digest s).length = 64 := by
  unfold digest
  rw [List.length_flatten, List.map_map]
  have h8 : ∀ w, (wordToHex w).length = 8 := fun w => rfl
  have : (List.map (List.length ∘ wordToHex) (sha256words (s.map Char.toNat)))
      = List.map (fun _ => 8) (sha256words (s.map Char.toNat)) := by
    apply List.map_congr_left
    intro w _
    exact h8 w
  rw [this, List.map_const', List.sum_replicate, sha256words_length]
  rfl

theorem toHexDigit_lowerHex (n : Nat) (h : n < 16) : isLowerHex (toHexDigit n) = true := by
  interval_cases n <;> decide

theorem digest_lowerHex (s : List Char) (c : Char) (hc : c ∈ digest s) :
    isLowerHex c = true := by
  unfold digest at hc
  rw [List.mem_flatten] at hc
  obtain ⟨l, hl, hcl⟩ := hc
  rw [List.mem_map] at hl
  obtain ⟨w, _, rfl⟩ := hl
  unfold wordToHex at hcl
  simp only [List.mem_cons, List.not_mem_nil, or_false] at hcl
  rcases hcl with h | h | h | h | h | h | h | h <;>
    { subst h; exact toHexDigit_lowerHex _ (Nat.mod_lt _ (by omega)) }

theorem bareHex64_digest (s : List Char) : bareHex64 (digest s) = true := by
  unfold bareHex64
  rw [Bool.and_eq_true, beq_iff_eq, digest_length, List.all_eq_true]
  exact ⟨rfl, fun c hc => digest_lowerHex s c hc⟩

/-! ## Hex strings: lexicographic versus numeric order -/

theorem char_toNat_inj (c d : Char) (h : c.toNat = d.toNat) : c = d := by
  have h2 : Char.ofNat c.toNat = Char.ofNat d.toNat := by rw [h]
  rwa [Char.ofNat_toNat, Char.ofNat_toNat] at h2

theorem isLowerHex_isHexChar (c : Char) (h : isLowerHex c = true) : isHexChar c = true := by
  simp only [isLowerHex, Bool.or_eq_true, Bool.and_eq_true, decide_eq_true_eq] at h
  simp only [isHexChar, Bool.or_eq_true, Bool.and_eq_true, decide_eq_true_eq]
  omega

theorem hexDigitVal_lt16 (c : Char) (h : isHexChar c = true) : hexDigitVal c < 16 := by
  simp only [isHexChar, Bool.or_eq_true, Bool.and_eq_true, decide_eq_true_eq] at h
  unfold hexDigitVal
  split_ifs <;> omega

theorem headDominates (v w x y P : Nat) (hvw : v < w) (hx : x < P) :
    v * P + x < w * P + y := by
  have h1 : (v + 1) * P ≤ w * P := Nat.mul_le_mul_right P (by omega)
  calc v * P + x < v * P + P := by omega
    _ = (v + 1) * P := by ring
    _ ≤ w * P := h1
    _ ≤ w * P + y := Nat.le_add_right _ _

theorem all_lowerHex_all_hexChar (l : List Char) (h : l.all isLowerHex = true) :
    l.all isHexChar = true := by
  rw [List.all_eq_true] at h ⊢
  exact fun x hx => isLowerHex_isHexChar x (h x hx)

theorem hexVal_lt (l : List Char) (h : l.all isHexChar = true) :
    hexVal l < 16 ^ l.length := by
  induction l with
  | nil => simp [hexVal]
  | cons c cs ih =>
    rw [List.all_cons, Bool.and_eq_true] at h
    have hc := hexDigitVal_lt16 c h.1
    have hcs := ih h.2
    have hpow : (hexDigitVal c + 1) * 16 ^ cs.length ≤ 16 * 16 ^ cs.length :=
      Nat.mul_le_mul_right _ (by omega)
    simp only [hexVal, List.length_cons, pow_succ]
    calc hexDigitVal c * 16 ^ cs.length + hexVal cs
        < (hexDigitVal c + 1) * 16 ^ cs.length := by nlinarith
      _ ≤ 16 * 16 ^ cs.length := hpow
      _ = 16 ^ cs.length * 16 := by ring

theorem lowerHex_lt_iff (c d : Char) (hc : isLowerHex c = true) (hd : isLowerHex d = true) :
    c.toNat < d.toNat ↔ hexDigitVal c < hexDigitVal d := by
  simp only [isLowerHex, Bool.or_eq_true, Bool.and_eq_true, decide_eq_true_eq] at hc hd
  unfold hexDigitVal
  split_ifs <;> omega

theorem lowerHex_eq_of_val_eq (c d : Char) (hc : isLowerHex c = true)
    (hd : isLowerHex d = true) (h : hexDigitVal c = hexDigitVal d) : c = d := by
  apply char_toNat_inj
  simp only [isLowerHex, Bool.or_eq_true, Bool.and_eq_true, decide_eq_true_eq] at hc hd
  unfold hexDigitVal at h
  split_ifs at h <;> omega

/-- On equal-length lowercase hex strings, Rust's lexicographic `String`
order coincides with the numeric order of their hex values: the rule
`InclusionProof::verify` uses agrees with the rule `construct_merkle_tree`
uses exactly on such strings. -/
theorem strLt_iff_hexVal (a b : List Char) (hlen : a.length = b.length)
    (ha : a.all isLowerHex = true) (hb : b.all isLowerHex = true) :
    strLt a b = true ↔ hexVal a < hexVal b := by
  induction a generalizing b with
  | nil =>
    cases b with
    | nil => simp [strLt, hexVal]
    | cons d ds => simp at hlen
  | cons c cs ih =>
    cases b with
    | nil => simp at hlen
    | cons d ds =>
      rw [List.length_cons, List.length_cons] at hlen
      rw [List.all_cons, Bool.and_eq_true] at ha hb
      have hlen2 : cs.length = ds.length := by omega
      have hvc := hexDigitVal_lt16 c (isLowerHex_isHexChar c ha.1)
      have hvd := hexDigitVal_lt16 d (isLowerHex_isHexChar d hb.1)
      have hcs : hexVal cs < 16 ^ cs.length :=
        hexVal_lt cs (all_lowerHex_all_hexChar cs ha.2)
      have hds : hexVal ds < 16 ^ ds.length :=
        hexVal_lt ds (all_lowerHex_all_hexChar ds hb.2)
      rw [hlen2] at hcs
      simp only [strLt, hexVal, hlen2]
      split_ifs with h1 h2
      · rw [lowerHex_lt_iff c d ha.1 hb.1] at h1
        simp only [true_iff]
        exact headDominates _ _ _ _ _ h1 hcs
      · rw [lowerHex_lt_iff d c hb.1 ha.1] at h2
        simp only [false_iff, not_lt]
        exact Nat.le_of_lt (headDominates _ _ _ _ _ h2 hds)
      · have heq : hexDigitVal c = hexDigitVal d := by
          rw [lowerHex_lt_iff c d ha.1 hb.1] at h1
          rw [lowerHex_lt_iff d c hb.1 ha.1] at h2
          omega
        rw [ih ds hlen2 ha.2 hb.2, heq, Nat.add_lt_add_iff_left]

/-- Equal-length lowercase hex strings with equal numeric value are equal. -/
theorem hexVal_inj (a b : List Char) (hlen : a.length = b.length)
    (ha : a.all isLowerHex = true) (hb : b.all isLowerHex = true)
    (h : hexVal a = hexVal b) : a = b := by
  induction a generalizing b with
  | nil => cases b with
    | nil => rfl
    | cons d ds => simp at hlen
  | cons c cs ih =>
    cases b with
    | nil => simp at hlen
    | cons d ds =>
      rw [List.length_cons, List.length_cons] at hlen
      rw [List.all_cons, Bool.and_eq_true] at ha hb
      have hlen2 : cs.length = ds.length := by omega
      have hcs : hexVal cs < 16 ^ cs.length :=
        hexVal_lt cs (all_lowerHex_all_hexChar cs ha.2)
      have hds : hexVal ds < 16 ^ ds.length :=
        hexVal_lt ds (all_lowerHex_all_hexChar ds hb.2)
      rw [hlen2] at hcs
      simp only [hexVal, hlen2] at h
      have hvals : hexDigitVal c = hexDigitVal d := by
        rcases Nat.lt_trichotomy (hexDigitVal c) (hexDigitVal d) with hlt | heq | hgt
        · exact absurd h (Nat.ne_of_lt (headDominates _ _ _ _ _ hlt hcs))
        · exact heq
        · exact absurd h.symm (Nat.ne_of_lt (headDominates _ _ _ _ _ hgt hds))
      have hc : c = d := lowerHex_eq_of_val_eq c d ha.1 hb.1 hvals
      have htail : hexVal cs = hexVal ds := by
        rw [hvals] at h
        omega
      rw [hc, ih ds hlen2 ha.2 hb.2 htail]

/-! ## Agreement of the verifier's and the builder's combination steps -/

theorem bareHex64_length (l : List Char) (h : bareHex64 l = true) : l.length = 64 := by
  unfold bareHex64 at h
  rw [Bool.and_eq_true, beq_iff_eq] at h
  exact h.1

theorem bareHex64_all (l : List Char) (h : bareHex64 l = true) :
    l.all isLowerHex = true := by
  unfold bareHex64 at h
  rw [Bool.and_eq_true] at h
  exact h.2

/-- A string of lowercase hex characters never starts with "0x" ('x' is not a
hex digit), so `trim_start_matches` leaves it unchanged. -/
theorem trimStart0x_lowerHex (l : List Char) (h : l.all isLowerHex = true) :
    trimStart0x l = l := by
  rw [trimStart0x.eq_def]
  split
  · rename_i rest
    exfalso
    simp only [List.all_cons, Bool.and_eq_true] at h
    exact absurd h.2.1 (by decide)
  · rfl

theorem fromBeHex_bare (l : List Char) (h : bareHex64 l = true) :
    fromBeHex l = some (hexVal l) := by
  unfold fromBeHex
  rw [if_pos]
  rw [Bool.and_eq_true, beq_iff_eq]
  exact ⟨bareHex64_length l h, all_lowerHex_all_hexChar l (bareHex64_all l h)⟩

/-- On bare digest strings the builder's pairing step (numeric comparison via
`U256::from_be_hex`) produces exactly the hash the verifier's step
(lexicographic comparison) computes. -/
theorem combineNodes_bare (a b : MerkleTreeNode) (ha : bareHex64 a.hash = true)
    (hb : bareHex64 b.hash = true) :
    combineNodes a b = some (.mk (verifyStep a.hash b.hash) (some a) (some b)) := by
  unfold combineNodes verifyStep
  rw [trimStart0x_lowerHex _ (bareHex64_all _ ha), trimStart0x_lowerHex _ (bareHex64_all _ hb),
      fromBeHex_bare _ ha, fromBeHex_bare _ hb]
  have hiff := strLt_iff_hexVal a.hash b.hash
    (by rw [bareHex64_length _ ha, bareHex64_length _ hb])
    (bareHex64_all _ ha) (bareHex64_all _ hb)
  by_cases hv : hexVal a.hash < hexVal b.hash
  · simp only [Option.bind_eq_bind, Option.some_bind, if_pos hv, if_pos (hiff.mpr hv)]
  · simp only [Option.bind_eq_bind, Option.some_bind, if_neg hv,
        if_neg (fun hc => hv (hiff.mp hc))]

/-- The verifier's combination step is symmetric on bare digest strings. -/
theorem verifyStep_symm (a b : List Char) (ha : bareHex64 a = true)
    (hb : bareHex64 b = true) : verifyStep b a = verifyStep a b := by
  have hlen : a.length = b.length := by rw [bareHex64_length _ ha, bareHex64_length _ hb]
  have hab := strLt_iff_hexVal a b hlen (bareHex64_all _ ha) (bareHex64_all _ hb)
  have hba := strLt_iff_hexVal b a hlen.symm (bareHex64_all _ hb) (bareHex64_all _ ha)
  unfold verifyStep
  by_cases hv : hexVal a < hexVal b
  · rw [if_pos (hab.mpr hv), if_neg (fun hc => absurd (hba.mp hc) (by omega))]
  · by_cases hw : hexVal b < hexVal a
    · rw [if_pos (hba.mpr hw), if_neg (fun hc => absurd (hab.mp hc) (by omega))]
    · have : a = b := hexVal_inj a b hlen (bareHex64_all _ ha) (bareHex64_all _ hb) (by omega)
      rw [this]

/-- The verifier's running hash stays a bare digest string. -/
theorem bareHex64_foldl_verifyStep (l : List (List Char)) (t : List Char)
    (ht : bareHex64 t = true) : bareHex64 (l.foldl verifyStep t) = true := by
  induction l generalizing t with
  | nil => exact ht
  | cons s l ih =>
    rw [List.foldl_cons]
    apply ih
    unfold verifyStep
    split_ifs <;> exact bareHex64_digest _

/-! ## Paths in the Merkle tree -/

theorem find_path_acc : (t : MerkleTreeNode) → ∀ (target : List Char)
    (acc : List MerkleTreeNode),
    find_path_to_transaction_in_merkle_tree t target acc
      = Option.map (fun p => acc ++ p) (find_path_to_transaction_in_merkle_tree t target [])
  | .mk h none none => by
    intro target acc
    simp only [find_path_to_transaction_in_merkle_tree]
    by_cases hm : h == target <;> simp [hm]
  | .mk h (some ln) none => by
    have ih := find_path_acc ln
    intro target acc
    simp only [find_path_to_transaction_in_merkle_tree]
    by_cases hm : h == target
    · simp [hm]
    · simp only [hm, if_false, Bool.false_eq_true]
      rw [ih target (acc ++ [MerkleTreeNode.mk h (some ln) none]),
          ih target ([] ++ [MerkleTreeNode.mk h (some ln) none])]
      cases hbase : find_path_to_transaction_in_merkle_tree ln target [] <;>
        simp [List.append_assoc]
  | .mk h none (some rn) => by
    have ih := find_path_acc rn
    intro target acc
    simp only [find_path_to_transaction_in_merkle_tree]
    by_cases hm : h == target
    · simp [hm]
    · simp only [hm, if_false, Bool.false_eq_true]
      rw [ih target (acc ++ [MerkleTreeNode.mk h none (some rn)]),
          ih target ([] ++ [MerkleTreeNode.mk h none (some rn)])]
      cases hbase : find_path_to_transaction_in_merkle_tree rn target [] <;>
        simp [List.append_assoc]
  | .mk h (some ln) (some rn) => by
    have ihl := find_path_acc ln
    have ihr := find_path_acc rn
    intro target acc
    simp only [find_path_to_transaction_in_merkle_tree]
    by_cases hm : h == target
    · simp [hm]
    · simp only [hm, if_false, Bool.false_eq_true]
      rw [ihl target (acc ++ [MerkleTreeNode.mk h (some ln) (some rn)]),
          ihl target ([] ++ [MerkleTreeNode.mk h (some ln) (some rn)])]
      cases hbase : find_path_to_transaction_in_merkle_tree ln target [] with
      | some p => simp [List.append_assoc]
      | none =>
        simp only [Option.map_none']
        rw [ihr target (acc ++ [MerkleTreeNode.mk h (some ln) (some rn)]),
            ihr target ([] ++ [MerkleTreeNode.mk h (some ln) (some rn)])]
        cases hbase2 : find_path_to_transaction_in_merkle_tree rn target [] <;>
          simp [List.append_assoc]

/-- A successful search from the root returns a path starting at the root. -/
theorem find_path_cons (t : MerkleTreeNode) (target : List Char)
    (path : List MerkleTreeNode)
    (h : find_path_to_transaction_in_merkle_tree t target [] = some path) :
    ∃ rest, path = t :: rest := by
  obtain ⟨hh, l, r⟩ := t
  rcases l with _ | ln <;> rcases r with _ | rn <;>
    rw [find_path_to_transaction_in_merkle_tree] at h <;>
    by_cases hm : hh == target
  · rw [if_pos hm] at h
    exact ⟨[], by injection h with h2; exact h2.symm⟩
  · rw [if_neg hm] at h
    exact absurd h (by simp)
  · rw [if_pos hm] at h
    exact ⟨[], by injection h with h2; exact h2.symm⟩
  · rw [if_neg hm, find_path_acc rn target ([] ++ [MerkleTreeNode.mk hh none (some rn)])] at h
    cases hb : find_path_to_transaction_in_merkle_tree rn target [] with
    | none => rw [hb] at h; exact absurd h (by simp)
    | some p =>
      rw [hb] at h
      simp only [Option.map_some', List.nil_append] at h
      exact ⟨p, by injection h with h2; exact h2.symm⟩
  · rw [if_pos hm] at h
    exact ⟨[], by injection h with h2; exact h2.symm⟩
  · rw [if_neg hm, find_path_acc ln target ([] ++ [MerkleTreeNode.mk hh (some ln) none])] at h
    cases hb : find_path_to_transaction_in_merkle_tree ln target [] with
    | none => rw [hb] at h; exact absurd h (by simp)
    | some p =>
      rw [hb] at h
      simp only [Option.map_some', List.nil_append] at h
      exact ⟨p, by injection h with h2; exact h2.symm⟩
  · rw [if_pos hm] at h
    exact ⟨[], by injection h with h2; exact h2.symm⟩
  · rw [if_neg hm, find_path_acc ln target ([] ++ [MerkleTreeNode.mk hh (some ln) (some rn)])] at h
    cases hb : find_path_to_transaction_in_merkle_tree ln target [] with
    | some p =>
      rw [hb] at h
      simp only [Option.map_some', List.nil_append] at h
      exact ⟨p, by injection h with h2; exact h2.symm⟩
    | none =>
      rw [hb] at h
      simp only [Option.map_none'] at h
      rw [find_path_acc rn target ([] ++ [MerkleTreeNode.mk hh (some ln) (some rn)])] at h
      cases hb2 : find_path_to_transaction_in_merkle_tree rn target [] with
      | none => rw [hb2] at h; exact absurd h (by simp)
      | some p =>
        rw [hb2] at h
        simp only [Option.map_some', List.nil_append] at h
        exact ⟨p, by injection h with h2; exact h2.symm⟩

/-- Replaying the verifier's combination steps over the siblings collected
from a search path reconstructs the hash at the path's origin, provided the
target and every collected sibling are bare digest strings. -/
theorem replay_spec : (t : MerkleTreeNode) → TreeOK t → ∀ (target : List Char)
    (path : List MerkleTreeNode),
    find_path_to_transaction_in_merkle_tree t target [] = some path →
    ∃ sibs, extractSiblings path = some sibs ∧
      (bareHex64 target = true → (∀ s ∈ sibs, bareHex64 s = true) →
        sibs.reverse.foldl verifyStep target = t.hash)
  | .mk h none none, _ => by
    intro target path hp
    rw [find_path_to_transaction_in_merkle_tree] at hp
    by_cases hm : h == target
    · rw [if_pos hm] at hp
      injection hp with hp2
      subst hp2
      refine ⟨[], rfl, fun _ _ => ?_⟩
      simp only [List.reverse_nil, List.foldl_nil, MerkleTreeNode.hash]
      exact (beq_iff_eq.mp hm).symm
    · rw [if_neg hm] at hp
      exact absurd hp (by simp)
  | .mk h (some l) none, hOK => hOK.elim
  | .mk h none (some r), hOK => hOK.elim
  | .mk h (some l) (some r), hOK => by
    obtain ⟨hco, hOKl, hOKr⟩ := hOK
    have ihl := replay_spec l hOKl
    have ihr := replay_spec r hOKr
    intro target path hp
    rw [find_path_to_transaction_in_merkle_tree] at hp
    by_cases hm : h == target
    · rw [if_pos hm] at hp
      injection hp with hp2
      subst hp2
      refine ⟨[], rfl, fun _ _ => ?_⟩
      simp only [List.reverse_nil, List.foldl_nil, MerkleTreeNode.hash]
      exact (beq_iff_eq.mp hm).symm
    · rw [if_neg hm,
          find_path_acc l target ([] ++ [MerkleTreeNode.mk h (some l) (some r)])] at hp
      cases hb : find_path_to_transaction_in_merkle_tree l target [] with
      | some pl =>
        rw [hb] at hp
        simp only [Option.map_some', List.nil_append] at hp
        injection hp with hp2
        subst hp2
        obtain ⟨rest, hrest⟩ := find_path_cons l target pl hb
        obtain ⟨sibs', hext', hfold'⟩ := ihl target pl hb
        subst hrest
        refine ⟨r.hash :: sibs', ?_, ?_⟩
        · simp only [extractSiblings, MerkleTreeNode.left, MerkleTreeNode.right,
            Option.some_bind, beq_self_eq_true, if_true, hext', Option.bind_eq_bind]
        · intro htarget hsibs
          have hsibs' : ∀ s ∈ sibs', bareHex64 s = true :=
            fun s hs => hsibs s (List.mem_cons_of_mem _ hs)
          have hfold := hfold' htarget hsibs'
          have hbl : bareHex64 l.hash = true := by
            rw [← hfold]
            exact bareHex64_foldl_verifyStep _ _ htarget
          have hbr : bareHex64 r.hash = true := hsibs r.hash (List.mem_cons_self _ _)
          have hcb := combineNodes_bare l r hbl hbr
          rw [hco] at hcb
          injection hcb with hcb2
          have hh : h = verifyStep l.hash r.hash := by
            injection hcb2
          simp only [List.reverse_cons, List.foldl_append, List.foldl_cons,
            List.foldl_nil, hfold, MerkleTreeNode.hash]
          exact hh.symm
      | none =>
        rw [hb] at hp
        simp only [Option.map_none'] at hp
        rw [find_path_acc r target ([] ++ [MerkleTreeNode.mk h (some l) (some r)])] at hp
        cases hb2 : find_path_to_transaction_in_merkle_tree r target [] with
        | none => rw [hb2] at hp; exact absurd hp (by simp)
        | some pr =>
          rw [hb2] at hp
          simp only [Option.map_some', List.nil_append] at hp
          injection hp with hp2
          subst hp2
          obtain ⟨rest, hrest⟩ := find_path_cons r target pr hb2
          obtain ⟨sibs', hext', hfold'⟩ := ihr target pr hb2
          subst hrest
          by_cases heq : l.hash == r.hash
          · refine ⟨r.hash :: sibs', ?_, ?_⟩
            · simp only [extractSiblings, MerkleTreeNode.left, MerkleTreeNode.right,
                Option.some_bind, heq, if_true, hext', Option.bind_eq_bind]
            · intro htarget hsibs
              have hsibs' : ∀ s ∈ sibs', bareHex64 s = true :=
                fun s hs => hsibs s (List.mem_cons_of_mem _ hs)
              have hfold := hfold' htarget hsibs'
              have hbr : bareHex64 r.hash = true := hsibs r.hash (List.mem_cons_self _ _)
              have hbl : bareHex64 l.hash = true := by rw [beq_iff_eq.mp heq]; exact hbr
              have hcb := combineNodes_bare l r hbl hbr
              rw [hco] at hcb
              injection hcb with hcb2
              have hh : h = verifyStep l.hash r.hash := by injection hcb2
              simp only [List.reverse_cons, List.foldl_append, List.foldl_cons,
                List.foldl_nil, hfold]
              show verifyStep r.hash r.hash = (MerkleTreeNode.mk h (some l) (some r)).hash
              rw [show (MerkleTreeNode.mk h (some l) (some r)).hash = h from rfl, hh,
                beq_iff_eq.mp heq]
          · refine ⟨l.hash :: sibs', ?_, ?_⟩
            · simp only [extractSiblings, MerkleTreeNode.left, MerkleTreeNode.right,
                Option.some_bind, heq, if_false, Bool.false_eq_true, hext',
                Option.bind_eq_bind]
            · intro htarget hsibs
              have hsibs' : ∀ s ∈ sibs', bareHex64 s = true :=
                fun s hs => hsibs s (List.mem_cons_of_mem _ hs)
              have hfold := hfold' htarget hsibs'
              have hbl : bareHex64 l.hash = true := hsibs l.hash (List.mem_cons_self _ _)
              have hbr : bareHex64 r.hash = true := by
                rw [← hfold]
                exact bareHex64_foldl_verifyStep _ _ htarget
              have hcb := combineNodes_bare l r hbl hbr
              rw [hco] at hcb
              injection hcb with hcb2
              have hh : h = verifyStep l.hash r.hash := by injection hcb2
              simp only [List.reverse_cons, List.foldl_append, List.foldl_cons,
                List.foldl_nil, hfold]
              show verifyStep r.hash l.hash = (MerkleTreeNode.mk h (some l) (some r)).hash
              rw [show (MerkleTreeNode.mk h (some l) (some r)).hash = h from rfl,
                verifyStep_symm l.hash r.hash hbl hbr, hh]

/-! ## Invariants of the level-folding construction -/

theorem combineNodes_shape (a b n : MerkleTreeNode) (h : combineNodes a b = some n) :
    ∃ hh, n = .mk hh (some a) (some b) := by
  unfold combineNodes at h
  cases hfa : fromBeHex (trimStart0x a.hash) with
  | none => rw [hfa] at h; exact absurd h (by simp)
  | some va =>
    cases hfb : fromBeHex (trimStart0x b.hash) with
    | none => rw [hfa, hfb] at h; exact absurd h (by simp)
    | some vb =>
      rw [hfa, hfb] at h
      simp only [Option.bind_eq_bind, Option.some_bind] at h
      injection h with h2
      exact ⟨_, h2.symm⟩

theorem treeOK_of_combine (a b n : MerkleTreeNode) (h : combineNodes a b = some n)
    (ha : TreeOK a) (hb : TreeOK b) : TreeOK n := by
  obtain ⟨hh, rfl⟩ := combineNodes_shape a b n h
  exact ⟨h, ha, hb⟩

theorem pairPairs_treeOK : (nodes : List MerkleTreeNode) → (out : List MerkleTreeNode) →
    pairPairs nodes = some out → (∀ n ∈ nodes, TreeOK n) → ∀ m ∈ out, TreeOK m
  | [], out, h, _ => by
    simp only [pairPairs] at h
    injection h with h2
    subst h2
    intro m hm
    exact absurd hm (by simp)
  | [x], out, h, _ => by
    simp only [pairPairs] at h
    injection h with h2
    subst h2
    intro m hm
    exact absurd hm (by simp)
  | a :: b :: rest, out, h, hn => by
    rw [pairPairs] at h
    cases hc : combineNodes a b with
    | none => rw [hc] at h; exact absurd h (by simp)
    | some n =>
      rw [hc] at h
      cases hp : pairPairs rest with
      | none => rw [hp] at h; exact absurd h (by simp)
      | some ns =>
        rw [hp] at h
        simp only [Option.bind_eq_bind, Option.some_bind] at h
        injection h with h2
        subst h2
        intro m hm
        rcases List.mem_cons.mp hm with hma | hm2
        · subst hma
          exact treeOK_of_combine a b m hc (hn a (by simp)) (hn b (by simp))
        · exact pairPairs_treeOK rest ns hp
            (fun x hx => hn x (by simp [hx])) m hm2

theorem hashInTree_child (target : List Char) (l r n : MerkleTreeNode)
    (h : combineNodes l r = some n)
    (hc : hashInTree target l = true ∨ hashInTree target r = true) :
    hashInTree target n = true := by
  obtain ⟨hh, rfl⟩ := combineNodes_shape l r n h
  rcases hc with hc | hc <;> simp [hashInTree, hc]

theorem pairPairs_contains (target : List Char) :
    (nodes : List MerkleTreeNode) → (out : List MerkleTreeNode) →
    pairPairs nodes = some out → 2 ∣ nodes.length →
    ∀ x ∈ nodes, hashInTree target x = true →
    ∃ m ∈ out, hashInTree target m = true
  | [], _, _, _ => by
    intro x hx
    exact absurd hx (by simp)
  | [x], _, _, hdvd => by
    exact absurd hdvd (by simp [Nat.dvd_iff_mod_eq_zero])
  | a :: b :: rest, out, h, hdvd => by
    rw [pairPairs] at h
    cases hc : combineNodes a b with
    | none => rw [hc] at h; exact absurd h (by simp)
    | some n =>
      rw [hc] at h
      cases hp : pairPairs rest with
      | none => rw [hp] at h; exact absurd h (by simp)
      | some ns =>
        rw [hp] at h
        simp only [Option.bind_eq_bind, Option.some_bind] at h
        injection h with h2
        subst h2
        intro x hx hxt
        rcases List.mem_cons.mp hx with hxa | hx2
        · subst hxa
          exact ⟨n, by simp, hashInTree_child target _ _ n hc (Or.inl hxt)⟩
        · rcases List.mem_cons.mp hx2 with hxb | hx3
          · subst hxb
            exact ⟨n, by simp, hashInTree_child target _ _ n hc (Or.inr hxt)⟩
          · have hdvd2 : 2 ∣ rest.length := by
              simp only [List.length_cons] at hdvd
              omega
            obtain ⟨m, hm, hmt⟩ := pairPairs_contains target rest ns hp hdvd2 x hx3 hxt
            exact ⟨m, by simp [hm], hmt⟩

theorem padIfOdd_even (nodes : List MerkleTreeNode) : 2 ∣ (padIfOdd nodes).length := by
  unfold padIfOdd
  by_cases hpar : nodes.length % 2 = 0
  · rw [if_neg (by simp [hpar])]
    omega
  · rw [if_pos (by rw [bne_iff_ne]; exact hpar)]
    simp only [List.length_append, List.length_cons, List.length_nil]
    omega

theorem mem_padIfOdd (x : MerkleTreeNode) (nodes : List MerkleTreeNode)
    (h : x ∈ nodes) : x ∈ padIfOdd nodes := by
  unfold padIfOdd
  split
  · exact List.mem_append_left _ h
  · exact h

theorem padIfOdd_treeOK (nodes : List MerkleTreeNode)
    (h : ∀ n ∈ nodes, TreeOK n) : ∀ n ∈ padIfOdd nodes, TreeOK n := by
  unfold padIfOdd
  split
  · intro n hn
    rcases List.mem_append.mp hn with hn2 | hn2
    · exact h n hn2
    · rw [List.mem_singleton.mp hn2]
      exact trivial
  · exact h

theorem buildLevels_treeOK : (fuel : Nat) → (nodes : List MerkleTreeNode) →
    (root : MerkleTreeNode) → buildLevels fuel nodes = some root →
    (∀ n ∈ nodes, TreeOK n) → TreeOK root
  | _, [], root => by
    intro h _
    rw [buildLevels] at h
    exact absurd h (by simp)
  | fuel, [n], root => by
    intro h hn
    rw [buildLevels] at h
    injection h with h2
    subst h2
    exact hn _ (by simp)
  | 0, a :: b :: rest, root => by
    intro h _
    rw [buildLevels] at h
    exact absurd h (by simp)
  | fuel + 1, a :: b :: rest, root => by
    intro h hn
    rw [buildLevels] at h
    cases hp : pairPairs (padIfOdd (a :: b :: rest)) with
    | none => rw [hp] at h; exact absurd h (by simp)
    | some next =>
      rw [hp] at h
      simp only [Option.bind_eq_bind, Option.some_bind] at h
      exact buildLevels_treeOK fuel next root h
        (pairPairs_treeOK _ next hp (padIfOdd_treeOK _ hn))

theorem buildLevels_contains (target : List Char) : (fuel : Nat) →
    (nodes : List MerkleTreeNode) → (root : MerkleTreeNode) →
    buildLevels fuel nodes = some root →
    ∀ x ∈ nodes, hashInTree target x = true → hashInTree target root = true
  | _, [], root => by
    intro h x hx
    exact absurd hx (by simp)
  | fuel, [n], root => by
    intro h x hx hxt
    rw [buildLevels] at h
    injection h with h2
    subst h2
    rw [List.mem_singleton.mp hx] at hxt
    exact hxt
  | 0, a :: b :: rest, root => by
    intro h _ _ _
    rw [buildLevels] at h
    exact absurd h (by simp)
  | fuel + 1, a :: b :: rest, root => by
    intro h x hx hxt
    rw [buildLevels] at h
    cases hp : pairPairs (padIfOdd (a :: b :: rest)) with
    | none => rw [hp] at h; exact absurd h (by simp)
    | some next =>
      rw [hp] at h
      simp only [Option.bind_eq_bind, Option.some_bind] at h
      obtain ⟨m, hm, hmt⟩ := pairPairs_contains target _ next hp (padIfOdd_even _)
        x (mem_padIfOdd x _ hx) hxt
      exact buildLevels_contains target fuel next root h m hm hmt

/-- Every tree `construct_merkle_tree` returns satisfies the structural
invariant. -/
theorem construct_treeOK (hs : List (List Char)) (root : MerkleTreeNode)
    (h : construct_merkle_tree hs = some root) : TreeOK root := by
  unfold construct_merkle_tree at h
  apply buildLevels_treeOK _ _ _ h
  intro n hn
  rw [List.mem_map] at hn
  obtain ⟨x, _, rfl⟩ := hn
  exact trivial

/-- Every input leaf hash occurs in the constructed tree. -/
theorem construct_contains (hs : List (List Char)) (root : MerkleTreeNode)
    (h : construct_merkle_tree hs = some root) (x : List Char) (hx : x ∈ hs) :
    hashInTree x root = true := by
  unfold construct_merkle_tree at h
  apply buildLevels_contains x _ _ root h (MerkleTreeNode.mk x none none)
  · exact List.mem_map.mpr ⟨x, hx, rfl⟩
  · simp [hashInTree]

/-- The depth-first search succeeds exactly when the target hash occurs in the
tree. -/
theorem find_path_isSome : (t : MerkleTreeNode) → ∀ (target : List Char)
    (acc : List MerkleTreeNode),
    (find_path_to_transaction_in_merkle_tree t target acc).isSome
      = hashInTree target t
  | .mk h none none => by
    intro target acc
    rw [find_path_to_transaction_in_merkle_tree]
    by_cases hm : h == target <;> simp [hm, hashInTree]
  | .mk h (some ln) none => by
    have ih := find_path_isSome ln
    intro target acc
    rw [find_path_to_transaction_in_merkle_tree]
    by_cases hm : h == target
    · simp [hm, hashInTree]
    · simp only [hm, if_false, Bool.false_eq_true, hashInTree, Bool.false_or]
      cases hb : find_path_to_transaction_in_merkle_tree ln target
          (acc ++ [MerkleTreeNode.mk h (some ln) none]) with
      | some p => have := ih target (acc ++ [MerkleTreeNode.mk h (some ln) none])
                  rw [hb] at this
                  simp at this ⊢
                  rw [← this]
      | none => have := ih target (acc ++ [MerkleTreeNode.mk h (some ln) none])
                rw [hb] at this
                simp at this ⊢
                rw [← this]
  | .mk h none (some rn) => by
    have ih := find_path_isSome rn
    intro target acc
    rw [find_path_to_transaction_in_merkle_tree]
    by_cases hm : h == target
    · simp [hm, hashInTree]
    · simp only [hm, if_false, Bool.false_eq_true, hashInTree, Bool.false_or]
      cases hb : find_path_to_transaction_in_merkle_tree rn target
          (acc ++ [MerkleTreeNode.mk h none (some rn)]) with
      | some p => have := ih target (acc ++ [MerkleTreeNode.mk h none (some rn)])
                  rw [hb] at this
                  simp at this ⊢
                  rw [← this]
      | none => have := ih target (acc ++ [MerkleTreeNode.mk h none (some rn)])
                rw [hb] at this
                simp at this ⊢
                rw [← this]
  | .mk h (some ln) (some rn) => by
    have ihl := find_path_isSome ln
    have ihr := find_path_isSome rn
    intro target acc
    rw [find_path_to_transaction_in_merkle_tree]
    by_cases hm : h == target
    · simp [hm, hashInTree]
    · simp only [hm, if_false, Bool.false_eq_true, hashInTree, Bool.false_or]
      cases hb : find_path_to_transaction_in_merkle_tree ln target
          (acc ++ [MerkleTreeNode.mk h (some ln) (some rn)]) with
      | some p =>
        have := ihl target (acc ++ [MerkleTreeNode.mk h (some ln) (some rn)])
        rw [hb] at this
        simp at this ⊢
        exact Or.inl this
      | none =>
        have hl := ihl target (acc ++ [MerkleTreeNode.mk h (some ln) (some rn)])
        rw [hb] at hl
        simp at hl
        cases hb2 : find_path_to_transaction_in_merkle_tree rn target
            (acc ++ [MerkleTreeNode.mk h (some ln) (some rn)]) with
        | some p =>
          have hr := ihr target (acc ++ [MerkleTreeNode.mk h (some ln) (some rn)])
          rw [hb2] at hr
          simp at hr
          simp [hl, hr]
        | none =>
          have hr := ihr target (acc ++ [MerkleTreeNode.mk h (some ln) (some rn)])
          rw [hb2] at hr
          simp at hr
          simp [hl, hr]

/-! ## Totality of `construct_merkle_tree` on well-formed leaves -/

theorem bare_valid (h : List Char) (hb : bareHex64 h = true) :
    fromBeHex (trimStart0x h) = some (hexVal h) := by
  rw [trimStart0x_lowerHex h (bareHex64_all h hb)]
  exact fromBeHex_bare h hb

theorem combineNodes_bare_hash (a b n : MerkleTreeNode)
    (h : combineNodes a b = some n) : bareHex64 n.hash = true := by
  unfold combineNodes at h
  cases hfa : fromBeHex (trimStart0x a.hash) with
  | none => rw [hfa] at h; exact absurd h (by simp)
  | some va =>
    cases hfb : fromBeHex (trimStart0x b.hash) with
    | none => rw [hfa, hfb] at h; exact absurd h (by simp)
    | some vb =>
      rw [hfa, hfb] at h
      simp only [Option.bind_eq_bind, Option.some_bind] at h
      injection h with h2
      rw [← h2]
      show bareHex64 (if va < vb then digest (a.hash ++ b.hash)
        else digest (b.hash ++ a.hash)) = true
      split_ifs <;> exact bareHex64_digest _

theorem pairPairs_bare : (nodes : List MerkleTreeNode) → (out : List MerkleTreeNode) →
    pairPairs nodes = some out → ∀ m ∈ out, bareHex64 m.hash = true
  | [], out, h => by
    simp only [pairPairs] at h
    injection h with h2
    subst h2
    intro m hm
    exact absurd hm (by simp)
  | [x], out, h => by
    simp only [pairPairs] at h
    injection h with h2
    subst h2
    intro m hm
    exact absurd hm (by simp)
  | a :: b :: rest, out, h => by
    rw [pairPairs] at h
    cases hc : combineNodes a b with
    | none => rw [hc] at h; exact absurd h (by simp)
    | some n =>
      rw [hc] at h
      cases hp : pairPairs rest with
      | none => rw [hp] at h; exact absurd h (by simp)
      | some ns =>
        rw [hp] at h
        simp only [Option.bind_eq_bind, Option.some_bind] at h
        injection h with h2
        subst h2
        intro m hm
        rcases List.mem_cons.mp hm with hma | hm2
        · subst hma
          exact combineNodes_bare_hash a b m hc
        · exact pairPairs_bare rest ns hp m hm2

theorem pairPairs_total : (nodes : List MerkleTreeNode) →
    (∀ n ∈ nodes, ∃ v, fromBeHex (trimStart0x n.hash) = some v) →
    ∃ out, pairPairs nodes = some out ∧ out.length = nodes.length / 2
  | [], _ => ⟨[], by simp [pairPairs]⟩
  | [x], _ => ⟨[], by simp [pairPairs]⟩
  | a :: b :: rest, hv => by
    obtain ⟨va, hva⟩ := hv a (by simp)
    obtain ⟨vb, hvb⟩ := hv b (by simp)
    obtain ⟨out, hout, hlen⟩ := pairPairs_total rest (fun n hn => hv n (by simp [hn]))
    refine ⟨MerkleTreeNode.mk (if va < vb then digest (a.hash ++ b.hash)
      else digest (b.hash ++ a.hash)) (some a) (some b) :: out, ?_, ?_⟩
    · rw [pairPairs]
      unfold combineNodes
      rw [hva, hvb, hout]
      simp
    · simp only [List.length_cons, hlen]
      omega

theorem padIfOdd_length (nodes : List MerkleTreeNode) :
    (padIfOdd nodes).length = nodes.length + nodes.length % 2 := by
  unfold padIfOdd
  by_cases hpar : nodes.length % 2 = 0
  · rw [if_neg (by simp [hpar]), hpar]
    omega
  · rw [if_pos (by rw [bne_iff_ne]; exact hpar)]
    simp only [List.length_append, List.length_cons, List.length_nil]
    omega

theorem padIfOdd_valid (nodes : List MerkleTreeNode)
    (hv : ∀ n ∈ nodes, ∃ v, fromBeHex (trimStart0x n.hash) = some v) :
    ∀ n ∈ padIfOdd nodes, ∃ v, fromBeHex (trimStart0x n.hash) = some v := by
  unfold padIfOdd
  split
  · intro n hn
    rcases List.mem_append.mp hn with hn2 | hn2
    · exact hv n hn2
    · rw [List.mem_singleton.mp hn2]
      exact ⟨0, by decide⟩
  · exact hv

theorem buildLevels_total : (fuel : Nat) → (nodes : List MerkleTreeNode) →
    nodes.length ≤ fuel → nodes ≠ [] →
    (∀ n ∈ nodes, ∃ v, fromBeHex (trimStart0x n.hash) = some v) →
    ∃ root, buildLevels fuel nodes = some root
  | _, [], _, hne, _ => absurd rfl hne
  | fuel, [n], _, _, _ => ⟨n, by rw [buildLevels]⟩
  | 0, a :: b :: rest, hfuel, _, _ => by simp at hfuel
  | fuel + 1, a :: b :: rest, hfuel, _, hv => by
    obtain ⟨out, hout, hlen⟩ :=
      pairPairs_total (padIfOdd (a :: b :: rest)) (padIfOdd_valid _ hv)
    have hpadlen := padIfOdd_length (a :: b :: rest)
    have hlistlen : (a :: b :: rest).length = rest.length + 2 := by simp
    have hout_le : out.length ≤ fuel := by omega
    have hout_ne : out ≠ [] := by
      intro hnil
      rw [hnil] at hlen
      simp at hlen
      omega
    obtain ⟨root, hroot⟩ := buildLevels_total fuel out hout_le hout_ne
      (fun n hn => by
        have hb := pairPairs_bare _ out hout n hn
        exact ⟨hexVal n.hash, bare_valid n.hash hb⟩)
    refine ⟨root, ?_⟩
    rw [buildLevels, hout]
    simp only [Option.bind_eq_bind, Option.some_bind]
    exact hroot

/-- A tree built over bare leaf hashes has a bare root hash. -/
theorem buildLevels_bare : (fuel : Nat) → (nodes : List MerkleTreeNode) →
    (root : MerkleTreeNode) → buildLevels fuel nodes = some root →
    (∀ n ∈ nodes, bareHex64 n.hash = true) → bareHex64 root.hash = true
  | _, [], root => by
    intro h _
    rw [buildLevels] at h
    exact absurd h (by simp)
  | fuel, [n], root => by
    intro h hn
    rw [buildLevels] at h
    injection h with h2
    subst h2
    exact hn _ (by simp)
  | 0, a :: b :: rest, root => by
    intro h _
    rw [buildLevels] at h
    exact absurd h (by simp)
  | fuel + 1, a :: b :: rest, root => by
    intro h _
    rw [buildLevels] at h
    cases hp : pairPairs (padIfOdd (a :: b :: rest)) with
    | none => rw [hp] at h; exact absurd h (by simp)
    | some next =>
      rw [hp] at h
      simp only [Option.bind_eq_bind, Option.some_bind] at h
      exact buildLevels_bare fuel next root h (pairPairs_bare _ next hp)

/-! ## The mining loop and block production -/

theorem mineLoop_spec : (fuel : Nat) → (header : Header) → (s : List Char) →
    (h' : Header) → (s' : List Char) →
    mineLoop fuel header s = some (h', s') → s = headerHash header →
    is_valid_block_header_hash s' 5 = true ∧ s' = headerHash h' ∧
    ∃ nn, h' = { header with nonce := nn }
  | 0, _, _, _, _ => by
    intro h _
    exact absurd h (by simp [mineLoop])
  | fuel + 1, header, s, h', s' => by
    intro h hs
    rw [mineLoop] at h
    by_cases hv : is_valid_block_header_hash s 5 = true
    · rw [if_pos hv] at h
      injection h with h2
      rw [Prod.mk.injEq] at h2
      obtain ⟨rfl, rfl⟩ := h2
      exact ⟨hv, hs, header.nonce, rfl⟩
    · rw [if_neg hv] at h
      obtain ⟨hval, hhash, nn, hnn⟩ :=
        mineLoop_spec fuel { header with nonce := (header.nonce + 1) % U32 }
          (headerHash { header with nonce := (header.nonce + 1) % U32 }) h' s' h rfl
      exact ⟨hval, hhash, nn, hnn⟩

/-- What `mine_new_block` guarantees about any block it returns. -/
theorem mine_new_block_spec (fuel : Nat) (txs : List Transaction) (prev : Block)
    (b : Block) (h : mine_new_block fuel txs prev = some b) :
    b.transactions = txs ∧
    ∃ root, construct_merkle_tree (compute_transaction_hashes txs) = some root ∧
      b.header.transactions_merkle_root = [ '0', 'x' ] ++ root.hash ∧
      b.header.transactions_count = txs.length ∧
      b.header.difficulty = prev.header.difficulty ∧
      b.header.hash = headerHash { b.header with hash := [] } ∧
      is_valid_block_header_hash b.header.hash 5 = true := by
  simp only [mine_new_block] at h
  cases hroot : construct_merkle_tree (compute_transaction_hashes txs) with
  | none => rw [hroot] at h; exact absurd h (by simp)
  | some root =>
    rw [hroot] at h
    simp only [Option.bind_eq_bind, Option.some_bind] at h
    cases hml : mineLoop fuel
        { difficulty := prev.header.difficulty
          height := prev.header.height + 1
          miner := prev.header.miner
          nonce := 0
          hash := []
          previous_block_header_hash := prev.header.hash
          timestamp := prev.header.timestamp + 10
          transactions_count := (compute_transaction_hashes txs).length
          transactions_merkle_root := [ '0', 'x' ] ++ root.hash }
        (headerHash
        { difficulty := prev.header.difficulty
          height := prev.header.height + 1
          miner := prev.header.miner
          nonce := 0
          hash := []
          previous_block_header_hash := prev.header.hash
          timestamp := prev.header.timestamp + 10
          transactions_count := (compute_transaction_hashes txs).length
          transactions_merkle_root := [ '0', 'x' ] ++ root.hash }) with
    | none => rw [hml] at h; exact absurd h (by simp)
    | some pr =>
      obtain ⟨h2, s2⟩ := pr
      rw [hml] at h
      simp only [Option.bind_eq_bind, Option.some_bind] at h
      obtain ⟨hval, hhash, nn, hnn⟩ := mineLoop_spec _ _ _ _ _ hml rfl
      injection h with h3
      subst h3
      subst hnn
      refine ⟨rfl, root, rfl, rfl, ?_, rfl, hhash, hval⟩
      show (compute_transaction_hashes txs).length = txs.length
      simp [compute_transaction_hashes]

theorem mineChain_spec : (fuel k : Nat) → (chain : List Block) →
    (pool : List Transaction) → (recent : Block) → (chain' : List Block) →
    (pool' : List Transaction) →
    mineChain fuel k chain pool recent = some (chain', pool') →
    pool' = pool.drop (100 * k) ∧
    ∃ newBlocks, chain' = chain ++ newBlocks ∧ newBlocks.length = k ∧
      newBlocks.map Block.transactions
        = (List.range k).map (fun j => (pool.drop (100 * j)).take 100)
  | fuel, 0, chain, pool, recent, chain', pool' => by
    intro h
    rw [mineChain] at h
    injection h with h2
    rw [Prod.mk.injEq] at h2
    obtain ⟨rfl, rfl⟩ := h2
    exact ⟨by simp, [], by simp⟩
  | fuel, k + 1, chain, pool, recent, chain', pool' => by
    intro h
    rw [mineChain] at h
    by_cases hlen : 100 ≤ pool.length
    · rw [if_pos hlen] at h
      simp only [Option.bind_eq_bind, Option.some_bind] at h
      cases hb : mine_new_block fuel (pool.take 100) recent with
      | none => rw [hb] at h; exact absurd h (by simp)
      | some block =>
        rw [hb] at h
        simp only [Option.some_bind] at h
        obtain ⟨hpool, nb, hchain, hnblen, hmap⟩ :=
          mineChain_spec fuel k (chain ++ [block]) (pool.drop 100) block chain' pool' h
        have hbt : block.transactions = pool.take 100 :=
          (mine_new_block_spec fuel (pool.take 100) recent block hb).1
        refine ⟨?_, block :: nb, ?_, by simp [hnblen], ?_⟩
        · rw [hpool, List.drop_drop]
          congr 1
          ring
        · rw [hchain]
          simp
        · rw [List.map_cons, hbt, hmap, List.range_succ_eq_map, List.map_cons,
            List.map_map]
          simp only [Nat.mul_zero, List.drop_zero, Function.comp_apply, List.drop_drop]
          congr 1
          apply List.map_congr_left
          intro j hj
          have harith : 100 + 100 * j = 100 * (j + 1) := by ring
          rw [harith]
          rfl
    · rw [if_neg hlen] at h
      exact absurd h (by simp)

/-! ## Generation of inclusion proofs -/

/-- What `produce_inclusion_proof` returns when the target occurs in a
well-formed tree. -/
theorem produce_spec (root : MerkleTreeNode) (target : List Char)
    (hOK : TreeOK root) (hin : hashInTree target root = true) :
    ∃ p, produce_inclusion_proof root target = some p ∧
      p.transaction_hash = target ∧
      p.merkle_root = [ '0', 'x' ] ++ root.hash ∧
      (bareHex64 target = true → (∀ s ∈ p.hashes, bareHex64 s = true) →
        p.hashes.foldl verifyStep target = root.hash) := by
  have hsome : (find_path_to_transaction_in_merkle_tree root target []).isSome = true := by
    rw [find_path_isSome root target []]
    exact hin
  obtain ⟨path, hpath⟩ := Option.isSome_iff_exists.mp hsome
  obtain ⟨sibs, hext, hfold⟩ := replay_spec root hOK target path hpath
  refine ⟨{ transaction_hash := target, merkle_root := [ '0', 'x' ] ++ root.hash,
            hashes := sibs.reverse }, ?_, rfl, rfl, ?_⟩
  · unfold produce_inclusion_proof
    rw [hpath]
    simp only [Option.bind_eq_bind, Option.some_bind]
    rw [hext]
    simp
  · intro ht hs
    exact hfold ht (fun s hsm => hs s (by simpa using List.mem_reverse.mpr hsm))

/-- A target hash absent from the tree yields no proof. -/
theorem produce_none (root : MerkleTreeNode) (target : List Char)
    (hin : hashInTree target root = false) :
    produce_inclusion_proof root target = none := by
  have hnone : find_path_to_transaction_in_merkle_tree root target [] = none := by
    have := find_path_isSome root target []
    rw [hin] at this
    exact Option.not_isSome_iff_eq_none.mp (by simp [this])
  unfold produce_inclusion_proof
  rw [hnone]
  rfl

theorem usizeSub1_eq (n : Nat) (h1 : 1 ≤ n) (h2 : n < 18446744073709551616) :
    usizeSub1 n = n - 1 := by
  unfold usizeSub1
  omega

/-! ## Subtree structure -/

theorem treeOK_nodeIn : (t : MerkleTreeNode) → TreeOK t → ∀ (n : MerkleTreeNode),
    nodeIn n t → TreeOK n
  | .mk h none none, hOK => by
    intro n hn
    rw [nodeIn] at hn
    rw [hn]
    exact hOK
  | .mk h (some l) none, hOK => hOK.elim
  | .mk h none (some r), hOK => hOK.elim
  | .mk h (some l) (some r), hOK => by
    intro n hn
    rw [nodeIn] at hn
    rcases hn with rfl | hn | hn
    · exact hOK
    · exact treeOK_nodeIn l hOK.2.1 n hn
    · exact treeOK_nodeIn r hOK.2.2 n hn

/-- The combination equation of an internal node, in explicit numeric form. -/
theorem combineNodes_eq_form (l r : MerkleTreeNode) (hh : List Char)
    (h : combineNodes l r = some (.mk hh (some l) (some r))) :
    ∃ va vb, fromBeHex (trimStart0x l.hash) = some va ∧
      fromBeHex (trimStart0x r.hash) = some vb ∧
      hh = if va < vb then digest (l.hash ++ r.hash)
           else digest (r.hash ++ l.hash) := by
  unfold combineNodes at h
  cases hfa : fromBeHex (trimStart0x l.hash) with
  | none => rw [hfa] at h; exact absurd h (by simp)
  | some va =>
    cases hfb : fromBeHex (trimStart0x r.hash) with
    | none => rw [hfa, hfb] at h; exact absurd h (by simp)
    | some vb =>
      rw [hfa, hfb] at h
      simp only [Option.bind_eq_bind, Option.some_bind] at h
      injection h with h2
      refine ⟨va, vb, rfl, rfl, ?_⟩
      have he : (if va < vb then digest (l.hash ++ r.hash)
          else digest (r.hash ++ l.hash)) = hh := by injection h2
      exact he.symm

theorem combineNodes_leafIn (a b n : MerkleTreeNode) (hh : List Char)
    (h : combineNodes a b = some n) (hn : nodeIn (.mk hh none none) n) :
    nodeIn (.mk hh none none) a ∨ nodeIn (.mk hh none none) b := by
  obtain ⟨h2, rfl⟩ := combineNodes_shape a b n h
  rw [nodeIn] at hn
  rcases hn with heq | hn | hn
  · exact absurd (congrArg MerkleTreeNode.left heq) (by simp [MerkleTreeNode.left])
  · exact Or.inl hn
  · exact Or.inr hn

theorem pairPairs_leafIn : (nodes out : List MerkleTreeNode) → (hh : List Char) →
    pairPairs nodes = some out → ∀ m ∈ out, nodeIn (.mk hh none none) m →
    ∃ x ∈ nodes, nodeIn (.mk hh none none) x
  | [], out, hh, h => by
    simp only [pairPairs] at h
    injection h with h2
    subst h2
    intro m hm
    exact absurd hm (by simp)
  | [x], out, hh, h => by
    simp only [pairPairs] at h
    injection h with h2
    subst h2
    intro m hm
    exact absurd hm (by simp)
  | a :: b :: rest, out, hh, h => by
    rw [pairPairs] at h
    cases hc : combineNodes a b with
    | none => rw [hc] at h; exact absurd h (by simp)
    | some n =>
      rw [hc] at h
      cases hp : pairPairs rest with
      | none => rw [hp] at h; exact absurd h (by simp)
      | some ns =>
        rw [hp] at h
        simp only [Option.bind_eq_bind, Option.some_bind] at h
        injection h with h2
        subst h2
        intro m hm hmleaf
        rcases List.mem_cons.mp hm with hma | hm2
        · subst hma
          rcases combineNodes_leafIn a b m hh hc hmleaf with hx | hx
          · exact ⟨a, by simp, hx⟩
          · exact ⟨b, by simp, hx⟩
        · obtain ⟨x, hx, hxl⟩ := pairPairs_leafIn rest ns hh hp m hm2 hmleaf
          exact ⟨x, by simp [hx], hxl⟩

theorem padIfOdd_leafIn (x : MerkleTreeNode) (nodes : List MerkleTreeNode)
    (h : x ∈ padIfOdd nodes) : x ∈ nodes ∨ x = padNode := by
  unfold padIfOdd at h
  split at h
  · rcases List.mem_append.mp h with h2 | h2
    · exact Or.inl h2
    · exact Or.inr (List.mem_singleton.mp h2)
  · exact Or.inl h

theorem buildLevels_leafIn : (fuel : Nat) → (nodes : List MerkleTreeNode) →
    (root : MerkleTreeNode) → (hh : List Char) →
    buildLevels fuel nodes = some root → nodeIn (.mk hh none none) root →
    (∃ x ∈ nodes, nodeIn (.mk hh none none) x) ∨ hh = null_string
  | _, [], root, hh => by
    intro h _
    rw [buildLevels] at h
    exact absurd h (by simp)
  | fuel, [n], root, hh => by
    intro h hleaf
    rw [buildLevels] at h
    injection h with h2
    subst h2
    exact Or.inl ⟨_, by simp, hleaf⟩
  | 0, a :: b :: rest, root, hh => by
    intro h _
    rw [buildLevels] at h
    exact absurd h (by simp)
  | fuel + 1, a :: b :: rest, root, hh => by
    intro h hleaf
    rw [buildLevels] at h
    cases hp : pairPairs (padIfOdd (a :: b :: rest)) with
    | none => rw [hp] at h; exact absurd h (by simp)
    | some next =>
      rw [hp] at h
      simp only [Option.bind_eq_bind, Option.some_bind] at h
      rcases buildLevels_leafIn fuel next root hh h hleaf with ⟨m, hm, hml⟩ | hnull
      · obtain ⟨x, hx, hxl⟩ := pairPairs_leafIn _ next hh hp m hm hml
        rcases padIfOdd_leafIn x _ hx with hx2 | hx2
        · exact Or.inl ⟨x, hx2, hxl⟩
        · subst hx2
          simp only [padNode] at hxl
          rw [nodeIn] at hxl
          right
          injection hxl
      · exact Or.inr hnull

/-- Every childless node of a constructed tree carries an input leaf hash or
the padding placeholder. -/
theorem construct_leaves (hs : List (List Char)) (root : MerkleTreeNode)
    (hh : List Char) (h : construct_merkle_tree hs = some root)
    (hleaf : nodeIn (.mk hh none none) root) : hh ∈ hs ∨ hh = null_string := by
  unfold construct_merkle_tree at h
  rcases buildLevels_leafIn _ _ root hh h hleaf with ⟨x, hx, hxl⟩ | hnull
  · rw [List.mem_map] at hx
    obtain ⟨y, hy, rfl⟩ := hx
    rw [nodeIn] at hxl
    left
    have : hh = y := by injection hxl
    rw [this]
    exact hy
  · exact Or.inr hnull

/-- A tree over bare leaf hashes has a bare root hash. -/
theorem construct_bare (hs : List (List Char)) (root : MerkleTreeNode)
    (h : construct_merkle_tree hs = some root)
    (hb : ∀ x ∈ hs, bareHex64 x = true) : bareHex64 root.hash = true := by
  unfold construct_merkle_tree at h
  apply buildLevels_bare _ _ root h
  intro n hn
  rw [List.mem_map] at hn
  obtain ⟨x, hx, rfl⟩ := hn
  exact hb x hx

/-- The root field of any generated proof is the "0x"-prefixed root hash. -/
theorem produce_proj (root : MerkleTreeNode) (target : List Char)
    (p : InclusionProof) (h : produce_inclusion_proof root target = some p) :
    p.transaction_hash = target ∧ p.merkle_root = [ '0', 'x' ] ++ root.hash := by
  unfold produce_inclusion_proof at h
  cases hpath : find_path_to_transaction_in_merkle_tree root target [] with
  | none => rw [hpath] at h; exact absurd h (by simp)
  | some path =>
    rw [hpath] at h
    simp only [Option.bind_eq_bind, Option.some_bind] at h
    cases hext : extractSiblings path with
    | none => rw [hext] at h; exact absurd h (by simp)
    | some sibs =>
      rw [hext] at h
      simp only [Option.some_bind] at h
      injection h with h2
      rw [← h2]
      exact ⟨rfl, rfl⟩

theorem bareHex64_no_0x (l : List Char) (h : bareHex64 l = true) :
    l.take 2 ≠ [ '0', 'x' ] := by
  intro hc
  have hall := bareHex64_all l h
  have hx : 'x' ∈ l := by
    have hmem : 'x' ∈ l.take 2 := by rw [hc]; simp
    exact List.mem_of_mem_take hmem
  rw [List.all_eq_true] at hall
  exact absurd (hall _ hx) (by decide)

/-! ## The claims -/

/-- C1 (amended): for every block with at least one transaction and every
transaction index, generating an inclusion proof for the canonical hash of
that transaction from the Merkle tree built over the block's transaction
hashes succeeds, and the proof's `merkle_root` is the tree's root hash with
the "0x" prefix; verification of the generated proof succeeds provided every
sibling hash in the proof is a bare 64-character hex digest — that is,
provided the "0x"-prefixed padding placeholder does not occur among the
siblings (`claim_C1_counterexample` shows verification fails otherwise). -/
theorem claim_C1_roundtrip (txs : List Transaction) (i : Nat) (hi : i < txs.length)
    (root : MerkleTreeNode)
    (hroot : construct_merkle_tree (compute_transaction_hashes txs) = some root) :
    ∃ p, produce_inclusion_proof root (Transaction.hash (txs.get ⟨i, hi⟩)) = some p ∧
      p.merkle_root = [ '0', 'x' ] ++ root.hash ∧
      ((∀ s ∈ p.hashes, bareHex64 s = true) → p.verify = Except.ok p) := by
  have htarget : Transaction.hash (txs.get ⟨i, hi⟩) ∈ compute_transaction_hashes txs := by
    unfold compute_transaction_hashes
    exact List.mem_map.mpr ⟨txs.get ⟨i, hi⟩, List.get_mem txs i hi, rfl⟩
  have hOK := construct_treeOK _ _ hroot
  have hin := construct_contains _ _ hroot _ htarget
  obtain ⟨p, hp, hptx, hpmr, hfold⟩ := produce_spec root _ hOK hin
  refine ⟨p, hp, hpmr, ?_⟩
  intro hs
  have hbt : bareHex64 (Transaction.hash (txs.get ⟨i, hi⟩)) = true := bareHex64_digest _
  have hfold2 := hfold hbt hs
  show (if ([ '0', 'x' ] ++ p.hashes.foldl verifyStep p.transaction_hash)
      == p.merkle_root then Except.ok p
    else Except.error "Inclusion proof verification failed".data) = Except.ok p
  rw [hptx, hfold2, hpmr]
  simp

/-- Witness for C1: on the two-transaction block `[tx1, tx2]` the generated
proof for `tx1` is `proofW`, it verifies successfully, and its root field
carries the "0x"-prefixed tree root. -/
theorem claim_C1_roundtrip_witness :
    produce_inclusion_proof treeW (Transaction.hash tx1) = some proofW ∧
    proofW.verify = Except.ok proofW ∧
    proofW.merkle_root = [ '0', 'x' ] ++ treeW.hash := by
  have h := claim_C1_roundtrip [tx1, tx2] 0 (by decide) treeW (by rfl)
  obtain ⟨p, hp, hmr, himpl⟩ := h
  have hp2 : produce_inclusion_proof treeW (Transaction.hash tx1) = some p := hp
  have hpW : produce_inclusion_proof treeW (Transaction.hash tx1) = some proofW := by rfl
  rw [hpW] at hp2
  injection hp2 with hp3
  subst hp3
  exact ⟨hpW, himpl (by decide), hmr⟩

/-- Counterexample for C1: on the three-transaction block `[tx1, tx2, tx3]`
(whose third transaction hash begins with '0'), the proof generated for
transaction index 2 fails verification, because the padding placeholder
"0x00…0" sorts differently under the verifier's lexicographic comparison
than under the builder's numeric comparison. -/
theorem claim_C1_counterexample :
    ((construct_merkle_tree (compute_transaction_hashes [tx1, tx2, tx3])).bind
        (fun root => produce_inclusion_proof root (Transaction.hash tx3))).map
      InclusionProof.verify
    = some (Except.error "Inclusion proof verification failed".data) := by decide

/-- C2 (amended): on bare 64-character lowercase hex strings the verifier's
per-level step (lexicographic comparison, then digest of the concatenation)
computes exactly the hash the builder's pairing step (numeric `U256`
comparison) produces; `claim_C2_counterexample` shows the two steps disagree
when the sibling is the "0x"-prefixed padding placeholder and the current
hash begins with '0'. -/
theorem claim_C2_combination_rule (a b : List Char) (ha : bareHex64 a = true)
    (hb : bareHex64 b = true) :
    combineNodes (.mk a none none) (.mk b none none)
      = some (.mk (verifyStep a b) (some (.mk a none none))
          (some (.mk b none none))) :=
  combineNodes_bare _ _ ha hb

/-- Witness for C2 at two concrete bare digests. -/
theorem claim_C2_witness :
    combineNodes (.mk hexA64 none none) (.mk hexB64 none none)
      = some (.mk (verifyStep hexA64 hexB64) (some (.mk hexA64 none none))
          (some (.mk hexB64 none none))) :=
  claim_C2_combination_rule hexA64 hexB64 (by decide) (by decide)

/-- Counterexample for C2: for a current hash beginning with '0' and the
padding placeholder as sibling, the builder's step digests
`null_string ++ hexZ0` while the verifier's step digests
`hexZ0 ++ null_string`; the resulting hashes differ. -/
theorem claim_C2_counterexample :
    (combineNodes (.mk hexZ0 none none) (.mk null_string none none)).map
        MerkleTreeNode.hash
      ≠ some (verifyStep hexZ0 null_string) := by decide

/-- C3 (code bug): the claim states mining enforces the header's `difficulty`
field and accepts nonce 0 immediately when difficulty is 0. The code instead
passes the literal constant 5 to `is_valid_block_header_hash`: on a parent
with difficulty 0, the first nonce is rejected (the fuel-1 search fails)
because its digest lacks five leading zero hex digits, while `txW` (whose
nonce-0 digest does have five leading zeros) is accepted immediately even
though difficulty is 0. -/
theorem claim_C3_pow_difficulty :
    parentW.header.difficulty = 0 ∧
    mine_new_block 1 [tx1] parentW = none ∧
    (mine_new_block 1 [txW] parentW).isSome = true := by
  refine ⟨rfl, by decide, by decide⟩

/-- C4 (amended): at every level with more than one node, an odd node count
is padded with one synthetic node whose hash is the fixed all-zero
placeholder — but that placeholder is the 66-character "0x"-prefixed string,
not the bare 64-character format of a real digest
(`claim_C4_counterexample`); nodes are paired left-to-right, and each
parent's hash is the digest of the concatenation of the numerically smaller
child hash (as an unsigned hex integer) followed by the numerically
larger. -/
theorem claim_C4_construction_rule :
    (∀ nodes : List MerkleTreeNode, nodes.length % 2 = 1 →
      padIfOdd nodes = nodes ++ [MerkleTreeNode.mk null_string none none]) ∧
    null_string = [ '0', 'x' ] ++ List.replicate 64 '0' ∧
    (∀ a b rest n ns, combineNodes a b = some n → pairPairs rest = some ns →
      pairPairs (a :: b :: rest) = some (n :: ns)) ∧
    (∀ hs root, construct_merkle_tree hs = some root →
      (∀ hh l r, nodeIn (.mk hh (some l) (some r)) root →
        ∃ va vb, fromBeHex (trimStart0x l.hash) = some va ∧
          fromBeHex (trimStart0x r.hash) = some vb ∧
          hh = if va < vb then digest (l.hash ++ r.hash)
               else digest (r.hash ++ l.hash)) ∧
      (∀ hh, nodeIn (.mk hh none none) root → hh ∈ hs ∨ hh = null_string)) := by
  refine ⟨?_, by decide, ?_, ?_⟩
  · intro nodes hpar
    unfold padIfOdd
    rw [if_pos (by rw [bne_iff_ne]; omega)]
    rfl
  · intro a b rest n ns hc hp
    rw [pairPairs, hc, hp]
    simp
  · intro hs root hroot
    constructor
    · intro hh l r hnode
      have hOK := treeOK_nodeIn root (construct_treeOK hs root hroot) _ hnode
      exact combineNodes_eq_form l r hh hOK.1
    · intro hh hnode
      exact construct_leaves hs root hh hroot hnode

/-- Witness for C4: the padding equation at a one-node level, the combine
equation at the root of the tree over three concrete leaves, and the leaf
characterization at its `hexA64` leaf and padding leaf. -/
theorem claim_C4_witness :
    padIfOdd [MerkleTreeNode.mk hexA64 none none]
      = [MerkleTreeNode.mk hexA64 none none,
         MerkleTreeNode.mk null_string none none] ∧
    (∃ va vb, fromBeHex (trimStart0x treeQ1.hash) = some va ∧
      fromBeHex (trimStart0x treeQ2.hash) = some vb ∧
      "b2cc6dcd9ead8a0148887b6cee71fb43dbc5f86f697fb35f9b0685d6d2833daf".data
        = if va < vb then digest (treeQ1.hash ++ treeQ2.hash)
          else digest (treeQ2.hash ++ treeQ1.hash)) ∧
    (hexA64 ∈ [hexA64, hexB64, hexC64] ∨ hexA64 = null_string) ∧
    (null_string ∈ [hexA64, hexB64, hexC64] ∨ null_string = null_string) := by
  have h := claim_C4_construction_rule
  have h4 := h.2.2.2 [hexA64, hexB64, hexC64] treeQ (by rfl)
  refine ⟨h.1 [MerkleTreeNode.mk hexA64 none none] (by decide),
    h4.1 _ treeQ1 treeQ2 (Or.inl rfl),
    h4.2 hexA64 (Or.inr (Or.inl (Or.inr (Or.inl rfl)))),
    h4.2 null_string (Or.inr (Or.inr (Or.inr (Or.inr rfl))))⟩

/-- Counterexample for C4: in the tree over three leaves the synthetic
padding node's hash is the 66-character "0x"-prefixed string, which is not
the textual format of a real digest (64 bare hex characters). -/
theorem claim_C4_counterexample :
    (((construct_merkle_tree [hexA64, hexB64, hexC64]).bind
        MerkleTreeNode.right).bind MerkleTreeNode.right).map MerkleTreeNode.hash
      = some null_string ∧
    null_string.length = 66 ∧ (digest []).length = 64 := by
  refine ⟨by decide, by decide, digest_length []⟩

/-- C5: every block the miner produces satisfies
`transactions_count = length of its transactions` and carries as
`transactions_merkle_root` the "0x"-prefixed root of the Merkle tree over the
canonical hashes of its transactions in block order. -/
theorem claim_C5_block_invariants (fuel : Nat) (txs : List Transaction)
    (prev b : Block) (h : mine_new_block fuel txs prev = some b) :
    b.header.transactions_count = b.transactions.length ∧
    ∃ root, construct_merkle_tree (compute_transaction_hashes b.transactions)
        = some root ∧
      b.header.transactions_merkle_root = [ '0', 'x' ] ++ root.hash := by
  obtain ⟨htx, root, hroot, hmr, hcount, _⟩ := mine_new_block_spec fuel txs prev b h
  subst htx
  exact ⟨by rw [hcount], root, hroot, hmr⟩

/-- Witness for C5 at the concrete mined block `blockW` (whose
single-transaction Merkle tree is the leaf holding `txW`'s hash). -/
theorem claim_C5_witness :
    blockW.header.transactions_count = blockW.transactions.length ∧
    blockW.header.transactions_merkle_root
      = [ '0', 'x' ] ++ Transaction.hash txW := by
  have h := claim_C5_block_invariants 1 [txW] parentW blockW (by decide)
  obtain ⟨hcount, root, hroot, hmr⟩ := h
  have hroot2 : construct_merkle_tree (compute_transaction_hashes blockW.transactions)
      = some (MerkleTreeNode.mk (Transaction.hash txW) none none) := by rfl
  rw [hroot2] at hroot
  injection hroot with hroot3
  rw [← hroot3] at hmr
  exact ⟨hcount, hmr⟩

/-- C6 (code bug): the claim — selection keeps a transaction iff its lock
time has elapsed relative to the cutoff — is the documented intent, but the
code's literal comparison keeps exactly the opposite set: `txE` (lock time 5,
already elapsed at cutoff 10) is dropped while `txL` (lock time 20, still
locked) is kept. -/
theorem claim_C6_filter_polarity :
    txE.lock_time = 5 ∧ txL.lock_time = 20 ∧
    find_executable_transactions [txE, txL] 10 = [txL] ∧
    find_executable_transactions [txE] 10 = [] := by
  exact ⟨rfl, rfl, by decide, by decide⟩

/-- C7 (amended): every successful run of block production gives each mined
block exactly the next 100 transactions of the filtered, fee-ordered
sequence (the run fails — `drain(0..100)` panics — when fewer than 100
remain, `claim_C7_counterexample`), and the mempool written back is the
filtered, fee-ordered sequence with the consumed transactions removed —
transactions rejected by the filter are dropped, not retained. -/
theorem claim_C7_batching (fuel k : Nat) (chain : List Block)
    (pool : List Transaction) (chain' : List Block) (pool' : List Transaction)
    (h : produce_blocks fuel k chain pool = some (chain', pool')) :
    ∃ recent, find_most_recent_block chain = some recent ∧
      pool' = (find_executable_transactions pool
        (recent.header.timestamp + 10)).drop (100 * k) ∧
      ∃ newBlocks, chain' = chain ++ newBlocks ∧ newBlocks.length = k ∧
        newBlocks.map Block.transactions
          = (List.range k).map (fun j =>
              ((find_executable_transactions pool
                (recent.header.timestamp + 10)).drop (100 * j)).take 100) := by
  unfold produce_blocks at h
  cases hr : find_most_recent_block chain with
  | none => rw [hr] at h; exact absurd h (by simp)
  | some recent =>
    rw [hr] at h
    simp only [Option.bind_eq_bind, Option.some_bind] at h
    obtain ⟨hpool, nb, hchain, hlen, hmap⟩ :=
      mineChain_spec fuel k chain _ recent chain' pool' h
    exact ⟨recent, rfl, hpool, nb, hchain, hlen, hmap⟩

/-- Witness for C7 at a zero-block run: the most recent block is the genesis
block and the written-back mempool is the filtered sequence with nothing
consumed. -/
theorem claim_C7_witness :
    find_most_recent_block [genesisB] = some genesisB ∧
    ([] : List Transaction) = (find_executable_transactions []
      (genesisB.header.timestamp + 10)).drop (100 * 0) := by
  obtain ⟨recent, hrec, hpool, _⟩ :=
    claim_C7_batching 1 0 [genesisB] [] [genesisB] [] (by decide)
  have hrec2 : find_most_recent_block [genesisB] = some genesisB := by rfl
  rw [hrec2] at hrec
  injection hrec with hrec3
  subst hrec3
  exact ⟨hrec2, hpool⟩

/-- Counterexample for C7: with a single pending transaction that survives
the filter, the claim says a block with one transaction is mined; the code's
`drain(0..100)` panics instead (the run yields no result at all). -/
theorem claim_C7_counterexample :
    find_executable_transactions [txP] (genesisB.header.timestamp + 10) = [txP] ∧
    produce_blocks 1 1 [genesisB] [txP] = none := by
  exact ⟨by decide, by decide⟩

/-- C8 (amended): out-of-range block or transaction indices and absent leaf
hashes are recovered as empty results in the transaction-hash view, in the
sibling search of proof generation, and in proof verification — but the
block lookup inside `generate_inclusion_proof` itself is an `unwrap` that
panics on an out-of-range block index (`claim_C8_counterexample`). Indices
are `usize` values (below `2^64`); index 0 wraps to a huge out-of-range
index in release builds. -/
theorem claim_C8_not_found :
    (∀ (chain : List Block) (bn tn : Nat), 1 ≤ bn →
      bn < 18446744073709551616 → chain.length < bn →
      get_transaction_hash chain bn tn = none) ∧
    (∀ (chain : List Block) (bn tn : Nat) (block : Block), 1 ≤ tn →
      tn < 18446744073709551616 →
      chain.get? (usizeSub1 bn) = some block →
      block.transactions.length < tn →
      get_transaction_hash chain bn tn = none) ∧
    (∀ (root : MerkleTreeNode) (target : List Char),
      hashInTree target root = false →
      produce_inclusion_proof root target = none) ∧
    (∀ (chain : List Block) (bn : Nat) (target : List Char)
      (block : Block) (root : MerkleTreeNode),
      chain.get? (usizeSub1 bn) = some block →
      construct_merkle_tree (compute_transaction_hashes block.transactions)
        = some root →
      hashInTree target root = false →
      generate_inclusion_proof chain bn target = Except.ok none) ∧
    (∀ (chain : List Block) (bn : Nat) (proof : InclusionProof), 1 ≤ bn →
      bn < 18446744073709551616 → chain.length < bn →
      verify_inclusion_proof chain bn proof = VerifyOutcome.blockNotFound) ∧
    (∀ (chain : List Block) (bn : Nat) (target : List Char), 1 ≤ bn →
      bn < 18446744073709551616 → chain.length < bn →
      generate_inclusion_proof chain bn target
        = Except.error "panic: called Option::unwrap on a None value".data) := by
  refine ⟨?_, ?_, ?_, ?_, ?_, ?_⟩
  · intro chain bn tn h1 h2 h3
    unfold get_transaction_hash
    rw [usizeSub1_eq bn h1 h2]
    have hnone : chain.get? (bn - 1) = none := by
      rw [List.get?_eq_none]
      omega
    rw [hnone]
    rfl
  · intro chain bn tn block h1 h2 hblock hlen
    unfold get_transaction_hash
    rw [hblock]
    simp only [Option.bind_eq_bind, Option.some_bind]
    rw [usizeSub1_eq tn h1 h2]
    have hnone : block.transactions.get? (tn - 1) = none := by
      rw [List.get?_eq_none]
      omega
    rw [hnone]
    rfl
  · intro root target hin
    exact produce_none root target hin
  · intro chain bn target block root hblock hroot hin
    unfold generate_inclusion_proof
    rw [hblock]
    simp only [hroot, produce_none root target hin]
  · intro chain bn proof h1 h2 h3
    unfold verify_inclusion_proof
    rw [usizeSub1_eq bn h1 h2]
    have hnone : chain.get? (bn - 1) = none := by
      rw [List.get?_eq_none]
      omega
    rw [hnone]
  · intro chain bn target h1 h2 h3
    unfold generate_inclusion_proof
    rw [usizeSub1_eq bn h1 h2]
    have hnone : chain.get? (bn - 1) = none := by
      rw [List.get?_eq_none]
      omega
    rw [hnone]

/-- Witness for C8: each recovered lookup at a concrete instance, and the
panic of the generation block lookup on an empty chain. -/
theorem claim_C8_witness :
    get_transaction_hash [] 1 1 = none ∧
    get_transaction_hash [blockB] 1 2 = none ∧
    produce_inclusion_proof (.mk hexA64 none none) hexB64 = none ∧
    generate_inclusion_proof [blockB] 1 hexB64 = Except.ok none ∧
    verify_inclusion_proof [] 1 proofW = VerifyOutcome.blockNotFound ∧
    generate_inclusion_proof [] 1 [ 'a' ]
      = Except.error "panic: called Option::unwrap on a None value".data := by
  have h := claim_C8_not_found
  refine ⟨h.1 [] 1 1 (by decide) (by decide) (by decide),
    h.2.1 [blockB] 1 2 blockB (by decide) (by decide) (by decide) (by decide),
    h.2.2.1 _ hexB64 (by decide),
    h.2.2.2.1 [blockB] 1 hexB64 blockB
      (.mk (Transaction.hash tx1) none none) (by decide) (by rfl) (by decide),
    h.2.2.2.2.1 [] 1 proofW (by decide) (by decide) (by decide),
    h.2.2.2.2.2 [] 1 [ 'a' ] (by decide) (by decide) (by decide)⟩

/-- Counterexample for C8 as stated: looking up block 1 in an empty chain
during inclusion-proof generation is fatal (an `unwrap` panic), not a
recovered optional result. -/
theorem claim_C8_counterexample :
    generate_inclusion_proof ([] : List Block) 1 [ 'a' ]
      = Except.error "panic: called Option::unwrap on a None value".data := by
  decide

/-- C9: `construct_merkle_tree` terminates with a root node on every
non-empty sequence of well-formed leaf digests (64 lowercase hex characters
each); only the empty sequence is an error case. -/
theorem claim_C9_builder_totality (hs : List (List Char)) (hne : hs ≠ [])
    (hwf : ∀ x ∈ hs, bareHex64 x = true) :
    ∃ root, construct_merkle_tree hs = some root := by
  unfold construct_merkle_tree
  apply buildLevels_total
  · rw [List.length_map]
  · simpa using hne
  · intro n hn
    rw [List.mem_map] at hn
    obtain ⟨x, hx, rfl⟩ := hn
    exact ⟨hexVal x, bare_valid x (hwf x hx)⟩

/-- Witness for C9 on two concrete leaves. -/
theorem claim_C9_witness : ∃ root, construct_merkle_tree [hexA64, hexB64] = some root :=
  claim_C9_builder_totality [hexA64, hexB64] (by decide) (by decide)

/-- C10: the canonical transaction hash is the bare 64-character lowercase
hex digest with no "0x" prefix; the canonical header hash is "0x"-prefixed;
a mined block's stored `transactions_merkle_root` and a generated proof's
`merkle_root` are the bare root hash with "0x" prepended; and internal tree
node hashes are bare. -/
theorem claim_C10_prefix_convention :
    (∀ t : Transaction, bareHex64 (Transaction.hash t) = true ∧
      (Transaction.hash t).take 2 ≠ [ '0', 'x' ]) ∧
    (∀ h : Header, ∃ d, headerHash h = [ '0', 'x' ] ++ d ∧ bareHex64 d = true) ∧
    (∀ (fuel : Nat) (txs : List Transaction) (prev b : Block),
      mine_new_block fuel txs prev = some b →
      ∃ root, construct_merkle_tree (compute_transaction_hashes txs) = some root ∧
        b.header.transactions_merkle_root = [ '0', 'x' ] ++ root.hash ∧
        bareHex64 root.hash = true) ∧
    (∀ (root : MerkleTreeNode) (target : List Char) (p : InclusionProof),
      produce_inclusion_proof root target = some p →
      p.merkle_root = [ '0', 'x' ] ++ root.hash) ∧
    (∀ (hs : List (List Char)) (root : MerkleTreeNode) (hh : List Char)
      (l r : MerkleTreeNode), construct_merkle_tree hs = some root →
      nodeIn (.mk hh (some l) (some r)) root → bareHex64 hh = true) := by
  refine ⟨?_, ?_, ?_, ?_, ?_⟩
  · intro t
    exact ⟨bareHex64_digest _, bareHex64_no_0x _ (bareHex64_digest _)⟩
  · intro h
    exact ⟨_, rfl, bareHex64_digest _⟩
  · intro fuel txs prev b h
    obtain ⟨htx, root, hroot, hmr, _, _, _⟩ := mine_new_block_spec fuel txs prev b h
    refine ⟨root, hroot, hmr, ?_⟩
    apply construct_bare _ _ hroot
    intro x hx
    unfold compute_transaction_hashes at hx
    rw [List.mem_map] at hx
    obtain ⟨t, _, rfl⟩ := hx
    exact bareHex64_digest _
  · intro root target p h
    exact (produce_proj root target p h).2
  · intro hs root hh l r hroot hnode
    have hOK := treeOK_nodeIn root (construct_treeOK hs root hroot) _ hnode
    exact combineNodes_bare_hash l r _ hOK.1

/-- Witness for C10 at concrete instances: `tx1`'s hash is bare with no "0x"
prefix, the header hash of `parentW` consists of "0x" followed by a bare
digest, the mined block `blockW` stores the prefixed root (here the bare
hash of `txW`), `proofW` carries the prefixed root of `treeW`, and `treeW`'s
internal root hash is bare. -/
theorem claim_C10_witness :
    bareHex64 (Transaction.hash tx1) = true ∧
    (Transaction.hash tx1).take 2 ≠ [ '0', 'x' ] ∧
    headerHash parentW.header
      = [ '0', 'x' ] ++ (headerHash parentW.header).drop 2 ∧
    bareHex64 ((headerHash parentW.header).drop 2) = true ∧
    blockW.header.transactions_merkle_root
      = [ '0', 'x' ] ++ Transaction.hash txW ∧
    bareHex64 (Transaction.hash txW) = true ∧
    proofW.merkle_root = [ '0', 'x' ] ++ treeW.hash ∧
    bareHex64 "79dea3b3c88c4709be7bbfa3209e29ac0c754086a687df3f12eff3e08c7cce7d".data
      = true := by
  have h := claim_C10_prefix_convention
  obtain ⟨h1a, h1b⟩ := h.1 tx1
  obtain ⟨d, hd, hbd⟩ := h.2.1 parentW.header
  have hdrop : (headerHash parentW.header).drop 2 = d := by rw [hd]; rfl
  obtain ⟨root, hroot, hmr, hbare⟩ := h.2.2.1 1 [txW] parentW blockW (by decide)
  have hroot2 : construct_merkle_tree (compute_transaction_hashes [txW])
      = some (MerkleTreeNode.mk (Transaction.hash txW) none none) := by rfl
  rw [hroot2] at hroot
  injection hroot with hroot3
  rw [← hroot3] at hmr hbare
  refine ⟨h1a, h1b, ?_, ?_, hmr, hbare,
    h.2.2.2.1 treeW (Transaction.hash tx1) proofW (by rfl),
    h.2.2.2.2 (compute_transaction_hashes [tx1, tx2]) treeW _ _ _ (by rfl)
      (Or.inl rfl)⟩
  · rw [hdrop]
    exact hd
  · rw [hdrop]
    exact hbd

/-- Sanity check of the SHA-256 model against the FIPS 180-4 test vector for
the message "abc". -/
theorem digest_abc_vector : digest "abc".data =
    "ba7816bf8f01cfea414140de5dae2223b00361a396177a9cb410ff61f20015ad".data := by
  decide

end BlockchainSim
